import Mathlib

/-!
Verification development for the yt-media-storage data-to-video packet
protocol.  The C++ sources are shallowly embedded as executable Lean
functions: byte buffers and files become `List Nat` (one entry per byte),
machine integers become `Nat` with explicit `% 2^w` where width matters,
and fallible operations return `Option` / `Except`.

Files embedded from the repository sources:
  - src/chunker.cpp / chunker.h   (chunkByteData, chunkFile, FileChunkReader)
  - src/media_storage_api.cpp     (make_file_id, ms_encode, ms_decode)
  - src/integrity.h               (signatures of crc32c, crc32c_concat, ...)
  - src/encoder.h / include/media_storage.h (data model, status codes)

Parts of the repository that are referenced from the sources above but whose
implementation files are not present (configuration.h, crypto.cpp, encoder.cpp,
decoder.cpp, integrity.cpp, the video carrier) are modelled from the spec;
each such definition carries a doc comment starting with
"Modelled from the spec:".
-/

namespace MediaStorage

/-! ### Little-endian byte-field helpers

Multi-byte packet fields are written least-significant byte first, matching
the memcpy-based field access in media_storage_api.cpp on a little-endian
host. -/

/-- Little-endian encoding of a 16-bit field into two bytes. -/
def le16 (n : Nat) : List Nat := [n % 256, n / 256 % 256]

/-- Little-endian encoding of a 32-bit field into four bytes. -/
def le32 (n : Nat) : List Nat :=
  [n % 256, n / 256 % 256, n / 2 ^ 16 % 256, n / 2 ^ 24 % 256]

/-- Read a 16-bit little-endian value from the head of a byte list. -/
def readLE16Head (l : List Nat) : Nat := l.getD 0 0 + 256 * l.getD 1 0

/-- Read a 32-bit little-endian value from the head of a byte list. -/
def readLE32Head (l : List Nat) : Nat :=
  l.getD 0 0 + 256 * l.getD 1 0 + 2 ^ 16 * l.getD 2 0 + 2 ^ 24 * l.getD 3 0

/-- Read a 16-bit little-endian value at an offset of a byte list. -/
def readLE16 (l : List Nat) (off : Nat) : Nat := readLE16Head (l.drop off)

/-- Read a 32-bit little-endian value at an offset of a byte list,
mirroring the memcpy in ms_decode. -/
def readLE32 (l : List Nat) (off : Nat) : Nat := readLE32Head (l.drop off)

theorem le16_length (n : Nat) : (le16 n).length = 2 := rfl

theorem le32_length (n : Nat) : (le32 n).length = 4 := rfl

theorem readLE16Head_le16 (n : Nat) (r : List Nat) :
    readLE16Head (le16 n ++ r) = n % 2 ^ 16 := by
  simp only [le16, readLE16Head, List.cons_append, List.getD_cons_zero,
    List.getD_cons_succ]
  omega

theorem readLE32Head_le32 (n : Nat) (r : List Nat) :
    readLE32Head (le32 n ++ r) = n % 2 ^ 32 := by
  simp only [le32, readLE32Head, List.cons_append, List.getD_cons_zero,
    List.getD_cons_succ]
  omega

theorem drop_le16 (n : Nat) (r : List Nat) : (le16 n ++ r).drop 2 = r := rfl

theorem drop_le32 (n : Nat) (r : List Nat) : (le32 n ++ r).drop 4 = r := rfl

/-! ### Chunker (src/chunker.cpp, src/chunker.h) -/

/-- Modelled from the spec: configuration.h is absent from the sources, so the
numeric value of the default chunk-size constant is not observable.  The spec
only requires a positive system constant; the chunking theorems below are
proved for every positive chunk size and this constant merely instantiates
them.  A small value keeps concrete witnesses kernel-evaluable. -/
def CHUNK_SIZE_BYTES : Nat := 8

/-- ChunkSlice from chunker.h: an offset/length descriptor into a backing
buffer. -/
structure ChunkSlice where
  offset : Nat
  length : Nat
deriving DecidableEq

/-- ChunkedStorageData from chunker.h: materialized bytes plus the slice
list. -/
structure ChunkedStorageData where
  storage : List Nat
  chunks : List ChunkSlice
deriving DecidableEq

/-- Embedding of the chunk loop shared by chunkByteData and chunkFile:
`for (off = 0; off < size; off += cs) push {off, min(cs, size - off)}`.
The loop runs at most `size` iterations when `0 < cs`, so a fuel of `size`
is always sufficient; the fuel only makes the C++ loop structurally
recursive. -/
def chunkLoop (cs size : Nat) : Nat → Nat → List ChunkSlice
  | 0, _ => []
  | fuel + 1, off =>
    if off < size then
      ⟨off, min cs (size - off)⟩ :: chunkLoop cs size fuel (off + cs)
    else []

/-- chunkByteData from chunker.cpp: copy the input bytes and slice them with
the default chunk size; a zero-length source yields one slice {0, 0}. -/
def chunkByteData (data : List Nat) : ChunkedStorageData :=
  { storage := data
    chunks :=
      if data.length = 0 then [⟨0, 0⟩]
      else chunkLoop CHUNK_SIZE_BYTES data.length data.length 0 }

/-- chunkFile from chunker.cpp, with the file abstracted to its byte
contents: read the whole file and slice it, defaulting a zero chunk size to
CHUNK_SIZE_BYTES. -/
def chunkFile (contents : List Nat) (chunk_size : Nat) : ChunkedStorageData :=
  let cs := if chunk_size > 0 then chunk_size else CHUNK_SIZE_BYTES
  { storage := contents
    chunks :=
      if contents.length = 0 then [⟨0, 0⟩]
      else chunkLoop cs contents.length contents.length 0 }

theorem chunkByteData_chunks (data : List Nat) :
    (chunkByteData data).chunks =
      if data.length = 0 then [⟨0, 0⟩]
      else chunkLoop CHUNK_SIZE_BYTES data.length data.length 0 := rfl

theorem chunkFile_chunks (contents : List Nat) (chunk_size : Nat) :
    (chunkFile contents chunk_size).chunks =
      if contents.length = 0 then [⟨0, 0⟩]
      else chunkLoop (if chunk_size > 0 then chunk_size else CHUNK_SIZE_BYTES)
        contents.length contents.length 0 := rfl

/-- chunkSpan from chunker.h: the bytes a slice addresses. -/
def chunkSpan (csd : ChunkedStorageData) (sl : ChunkSlice) : List Nat :=
  (csd.storage.drop sl.offset).take sl.length

/-- Bytes addressed by a slice of an arbitrary backing buffer. -/
def sliceBytes (contents : List Nat) (sl : ChunkSlice) : List Nat :=
  (contents.drop sl.offset).take sl.length

/-- FileChunkReader from chunker.h, with the file path abstracted to the
file's byte contents. -/
structure FileChunkReader where
  contents : List Nat
  cs : Nat
deriving DecidableEq

/-- FileChunkReader constructor from chunker.cpp: default a zero chunk size
to CHUNK_SIZE_BYTES and record the file size. -/
def mkFileChunkReader (contents : List Nat) (chunk_size : Nat) : FileChunkReader :=
  ⟨contents, if chunk_size > 0 then chunk_size else CHUNK_SIZE_BYTES⟩

/-- file_size accessor. -/
def FileChunkReader.file_size (r : FileChunkReader) : Nat := r.contents.length

/-- num_chunks as computed in the FileChunkReader constructor:
`file_size == 0 ? 1 : (file_size + cs - 1) / cs`. -/
def FileChunkReader.num_chunks (r : FileChunkReader) : Nat :=
  if r.file_size = 0 then 1 else (r.file_size + r.cs - 1) / r.cs

/-- Bytes of chunk `index` as read by FileChunkReader::read_chunk once the
range check has passed: an offset at or past end-of-file yields an empty
chunk, otherwise the `min(cs, file_size - offset)` bytes at the offset. -/
def FileChunkReader.chunk_bytes (r : FileChunkReader) (index : Nat) : List Nat :=
  let offset := index * r.cs
  if offset ≥ r.file_size then []
  else (r.contents.drop offset).take (min r.cs (r.file_size - offset))

/-- FileChunkReader::read_chunk from chunker.cpp: out-of-range indices throw,
valid indices read exactly the requested span. -/
def FileChunkReader.read_chunk (r : FileChunkReader) (index : Nat) :
    Except String (List Nat) :=
  if index ≥ r.num_chunks then .error "chunk index out of range"
  else .ok (r.chunk_bytes index)

/-! ### Generic facts about the chunk loop -/

/-- Closed form of the chunk loop: starting at offset `off` with enough fuel
it emits one slice per `cs`-stride still inside `size`. -/
theorem chunkLoop_eq (cs size : Nat) (hcs : 0 < cs) :
    ∀ fuel off, size - off ≤ fuel →
      chunkLoop cs size fuel off =
        (List.range ((size - off + cs - 1) / cs)).map
          (fun i => ⟨off + i * cs, min cs (size - (off + i * cs))⟩) := by
  intro fuel
  induction fuel with
  | zero =>
    intro off h
    have hz : size - off = 0 := Nat.le_zero.mp h
    have hd : (size - off + cs - 1) / cs = 0 := by
      rw [hz]
      exact Nat.div_eq_of_lt (by omega)
    rw [hd]
    simp [chunkLoop]
  | succ n ih =>
    intro off h
    by_cases hlt : off < size
    · have hrec := ih (off + cs) (by omega)
      have hcount : (size - off + cs - 1) / cs = (size - (off + cs) + cs - 1) / cs + 1 := by
        rcases Nat.le_total cs (size - off) with hle | hle
        · have heq : size - off + cs - 1 = (size - (off + cs) + cs - 1) + cs := by omega
          rw [heq, Nat.add_div_right _ hcs]
        · have h1 : (size - off + cs - 1) / cs = 1 :=
            Nat.div_eq_of_lt_le (by omega) (by omega)
          have h2 : size - (off + cs) = 0 := by omega
          have h3 : (size - (off + cs) + cs - 1) / cs = 0 := by
            rw [h2]
            exact Nat.div_eq_of_lt (by omega)
          rw [h1, h3]
      rw [chunkLoop, if_pos hlt, hrec, hcount, List.range_succ_eq_map]
      simp only [List.map_cons, List.map_map]
      congr 1
      · simp
      · apply List.map_congr_left
        intro i _
        simp only [Function.comp_apply, Nat.succ_eq_add_one]
        congr 1 <;> ring_nf
    · have hz : size - off = 0 := by omega
      have hd : (size - off + cs - 1) / cs = 0 := by
        rw [hz]
        exact Nat.div_eq_of_lt (by omega)
      rw [chunkLoop, if_neg hlt, hd]
      simp

/-- Number of slices produced for a nonempty source: the ceiling of
`size / cs`. -/
theorem chunkLoop_length (cs size : Nat) (hcs : 0 < cs) :
    (chunkLoop cs size size 0).length = (size + cs - 1) / cs := by
  rw [chunkLoop_eq cs size hcs size 0 (by omega)]
  simp

theorem getD_map_range {α : Type} (f : Nat → α) (n i : Nat) (d : α) (h : i < n) :
    ((List.range n).map f).getD i d = f i := by
  rw [List.getD_eq_getElem?_getD, List.getElem?_map, List.getElem?_range h]
  rfl

/-- Strict bounds against the ceiling division used for chunk counts. -/
theorem lt_ceil_iff (cs s k : Nat) (hcs : 0 < cs) (hs : 0 < s) :
    k < (s + cs - 1) / cs ↔ k * cs < s := by
  have h1 : k + 1 ≤ (s + cs - 1) / cs ↔ (k + 1) * cs ≤ s + cs - 1 :=
    Nat.le_div_iff_mul_le hcs
  have hmul : (k + 1) * cs = k * cs + cs := by ring
  omega

/-- Chunk `i` of the loop output, by index. -/
theorem chunkLoop_getD (cs size i : Nat) (hcs : 0 < cs) (hs : 0 < size)
    (hi : i < (size + cs - 1) / cs) :
    (chunkLoop cs size size 0).getD i ⟨0, 0⟩ = ⟨i * cs, min cs (size - i * cs)⟩ := by
  rw [chunkLoop_eq cs size hcs size 0 (by omega)]
  have := getD_map_range
    (fun i => (⟨0 + i * cs, min cs (size - (0 + i * cs))⟩ : ChunkSlice))
    ((size - 0 + cs - 1) / cs) i ⟨0, 0⟩ (by simpa using hi)
  simpa using this

/-- Slice lengths of the loop output sum to the remaining size. -/
theorem chunkLoop_sum (cs size : Nat) (hcs : 0 < cs) :
    ∀ fuel off, size - off ≤ fuel →
      ((chunkLoop cs size fuel off).map ChunkSlice.length).sum = size - off := by
  intro fuel
  induction fuel with
  | zero =>
    intro off h
    have hz : size - off = 0 := by omega
    simp [chunkLoop, hz]
  | succ n ih =>
    intro off h
    by_cases hlt : off < size
    · rw [chunkLoop, if_pos hlt]
      simp only [List.map_cons, List.sum_cons]
      rw [ih (off + cs) (by omega)]
      omega
    · rw [chunkLoop, if_neg hlt]
      simp only [List.map_nil, List.sum_nil]
      omega

/-- Concatenating the bytes addressed by the loop slices recovers the
source suffix: the slices cover the buffer without overlap or gaps. -/
theorem chunkLoop_join (l : List Nat) (cs : Nat) (hcs : 0 < cs) :
    ∀ fuel off, l.length - off ≤ fuel →
      ((chunkLoop cs l.length fuel off).map (sliceBytes l)).flatten = l.drop off := by
  intro fuel
  induction fuel with
  | zero =>
    intro off h
    have hz : l.length ≤ off := by omega
    simp [chunkLoop, List.drop_eq_nil_of_le hz]
  | succ n ih =>
    intro off h
    by_cases hlt : off < l.length
    · rw [chunkLoop, if_pos hlt]
      simp only [List.map_cons, List.flatten_cons]
      rw [ih (off + cs) (by omega)]
      have hlen : (l.drop off).length = l.length - off := List.length_drop off l
      have htake : sliceBytes l ⟨off, min cs (l.length - off)⟩ = (l.drop off).take cs := by
        unfold sliceBytes
        simp only
        rcases Nat.le_total cs (l.length - off) with hle | hle
        · rw [Nat.min_eq_left hle]
        · rw [Nat.min_eq_right hle]
          rw [List.take_of_length_le (by omega), List.take_of_length_le (by omega)]
      rw [htake]
      have hdd : l.drop (off + cs) = (l.drop off).drop cs := by
        rw [List.drop_drop]
        try congr 1
        try omega
      rw [hdd, List.take_append_drop]
    · rw [chunkLoop, if_neg hlt]
      simp [List.drop_eq_nil_of_le (by omega : l.length ≤ off)]

/-! ### Claim theorems for the chunker -/

/-- C6: a zero-length source yields exactly one chunk of length zero from
every chunking entry point: chunkByteData on an empty span, chunkFile on an
empty file, and a FileChunkReader constructed on an empty file (whose single
readable chunk is empty). -/
theorem empty_source_single_empty_chunk :
    (chunkByteData []).chunks = [⟨0, 0⟩] ∧
    (∀ chunk_size, (chunkFile [] chunk_size).chunks = [⟨0, 0⟩]) ∧
    (∀ chunk_size, (mkFileChunkReader [] chunk_size).num_chunks = 1 ∧
      (mkFileChunkReader [] chunk_size).read_chunk 0 = .ok []) := by
  refine ⟨rfl, fun cs => rfl, fun cs => ⟨rfl, ?_⟩⟩
  simp [FileChunkReader.read_chunk, FileChunkReader.num_chunks,
    FileChunkReader.chunk_bytes, FileChunkReader.file_size, mkFileChunkReader]

/-- C7: on a nonempty source the chunker emits exactly
ceil(size / chunk_size) slices; slice `i` starts at `i * cs`, every slice
except possibly the last has length `cs`, the last carries the remainder,
the lengths sum to the source size, and concatenating the addressed bytes
reproduces the source; chunkByteData behaves as chunkFile at the default
chunk size, and sources of sizes `cs - 1`, `cs` and `cs + 1` give 1, 1 and
2 chunks respectively. -/
theorem chunker_covers_source (data : List Nat) (cs : Nat)
    (hcs : 0 < cs) (hne : 0 < data.length) :
    ((chunkFile data cs).chunks.length = (data.length + cs - 1) / cs) ∧
    (∀ i, i < (chunkFile data cs).chunks.length →
      ((chunkFile data cs).chunks.getD i ⟨0, 0⟩).offset = i * cs) ∧
    (∀ i, i + 1 < (chunkFile data cs).chunks.length →
      ((chunkFile data cs).chunks.getD i ⟨0, 0⟩).length = cs) ∧
    (((chunkFile data cs).chunks.getD ((chunkFile data cs).chunks.length - 1) ⟨0, 0⟩).length
      = data.length - ((chunkFile data cs).chunks.length - 1) * cs) ∧
    (((chunkFile data cs).chunks.map ChunkSlice.length).sum = data.length) ∧
    (((chunkFile data cs).chunks.map (sliceBytes data)).flatten = data) ∧
    ((chunkByteData data).chunks = (chunkFile data CHUNK_SIZE_BYTES).chunks) ∧
    (data.length = cs - 1 → (chunkFile data cs).chunks.length = 1) ∧
    (data.length = cs → (chunkFile data cs).chunks.length = 1) ∧
    (data.length = cs + 1 → (chunkFile data cs).chunks.length = 2) := by
  have hdef : (chunkFile data cs).chunks = chunkLoop cs data.length data.length 0 := by
    rw [chunkFile_chunks, if_neg (show ¬data.length = 0 by omega), if_pos hcs]
  have hlen : (chunkFile data cs).chunks.length = (data.length + cs - 1) / cs := by
    rw [hdef, chunkLoop_length cs data.length hcs]
  refine ⟨hlen, ?_, ?_, ?_, ?_, ?_, ?_, ?_, ?_, ?_⟩
  · intro i hi
    rw [hlen] at hi
    rw [hdef, chunkLoop_getD cs data.length i hcs hne hi]
  · intro i hi
    rw [hlen] at hi
    rw [hdef, chunkLoop_getD cs data.length i hcs hne (by omega)]
    have h1 : (i + 1) * cs < data.length := by
      rw [← lt_ceil_iff cs data.length (i + 1) hcs hne]
      omega
    have hmul : (i + 1) * cs = i * cs + cs := by ring
    simp only
    omega
  · have hpos : 0 < (data.length + cs - 1) / cs := by
      rw [lt_ceil_iff cs data.length 0 hcs hne]
      omega
    rw [hlen, hdef,
      chunkLoop_getD cs data.length _ hcs hne (by omega)]
    have hlast : ((data.length + cs - 1) / cs - 1) * cs < data.length := by
      rw [← lt_ceil_iff cs data.length _ hcs hne]
      omega
    have hub : data.length ≤ (data.length + cs - 1) / cs * cs := by
      by_contra hcon
      push_neg at hcon
      have := (lt_ceil_iff cs data.length ((data.length + cs - 1) / cs) hcs hne).mpr hcon
      omega
    obtain ⟨q, hq⟩ : ∃ q, (data.length + cs - 1) / cs = q + 1 :=
      ⟨(data.length + cs - 1) / cs - 1, by omega⟩
    rw [hq] at hlast hub ⊢
    have hmul : (q + 1) * cs = q * cs + cs := by ring
    simp only [Nat.add_sub_cancel] at hlast ⊢
    omega
  · rw [hdef, chunkLoop_sum cs data.length hcs data.length 0 (by omega)]
    omega
  · rw [hdef, chunkLoop_join data cs hcs data.length 0 (by omega)]
    rfl
  · rw [chunkByteData_chunks, chunkFile_chunks,
      if_neg (show ¬data.length = 0 by omega), if_neg (show ¬data.length = 0 by omega)]
    rfl
  · intro hsz
    rw [hlen, hsz]
    have hcs2 : 2 ≤ cs := by omega
    exact Nat.div_eq_of_lt_le (by omega) (by omega)
  · intro hsz
    rw [hlen, hsz]
    exact Nat.div_eq_of_lt_le (by omega) (by omega)
  · intro hsz
    rw [hlen, hsz]
    exact Nat.div_eq_of_lt_le (by omega) (by omega)

/-- Witness for the chunk-cover theorem at a concrete input: nine bytes with
chunk size 4 give slices of sizes 4, 4, 1. -/
theorem chunker_covers_source_witness :
    (chunkFile [0, 1, 2, 3, 4, 5, 6, 7, 8] 4).chunks.length = 3 := by
  have h := chunker_covers_source [0, 1, 2, 3, 4, 5, 6, 7, 8] 4
    (by decide) (by decide)
  rw [h.1]
  decide

/-- C8: FileChunkReader::read_chunk fails with the out-of-range error
exactly on indices at or past num_chunks; every valid index returns exactly
the bytes of that chunk's slice of the file (the same span the materializing
chunker assigns to that index), and num_chunks agrees with the slice count
of chunkFile. -/
theorem read_chunk_spec (contents : List Nat) (chunk_size index : Nat) :
    ((mkFileChunkReader contents chunk_size).num_chunks
        = (chunkFile contents chunk_size).chunks.length) ∧
    (index ≥ (mkFileChunkReader contents chunk_size).num_chunks →
      (mkFileChunkReader contents chunk_size).read_chunk index
        = .error "chunk index out of range") ∧
    (index < (mkFileChunkReader contents chunk_size).num_chunks →
      (mkFileChunkReader contents chunk_size).read_chunk index
        = .ok (sliceBytes contents
            ((chunkFile contents chunk_size).chunks.getD index ⟨0, 0⟩))) := by
  set cs := if chunk_size > 0 then chunk_size else CHUNK_SIZE_BYTES with hcsdef
  have hcs : 0 < cs := by
    rw [hcsdef]
    split
    · omega
    · exact (by decide : 0 < CHUNK_SIZE_BYTES)
  have hr : mkFileChunkReader contents chunk_size = ⟨contents, cs⟩ := rfl
  by_cases hemp : contents.length = 0
  · have hnil : contents = [] := List.length_eq_zero.mp hemp
    subst hnil
    refine ⟨rfl, ?_, ?_⟩
    · intro hge
      have h1 : (mkFileChunkReader [] chunk_size).num_chunks = 1 := rfl
      unfold FileChunkReader.read_chunk
      rw [if_pos hge]
    · intro hlt
      have h1 : (mkFileChunkReader [] chunk_size).num_chunks = 1 := rfl
      rw [h1] at hlt
      interval_cases index
      simp [FileChunkReader.read_chunk, FileChunkReader.num_chunks,
        FileChunkReader.chunk_bytes, FileChunkReader.file_size, mkFileChunkReader,
        chunkFile_chunks, sliceBytes]
  · have hpos : 0 < contents.length := by omega
    have hchunks : (chunkFile contents chunk_size).chunks
        = chunkLoop cs contents.length contents.length 0 := by
      rw [chunkFile_chunks, if_neg hemp, ← hcsdef]
    have hnum : (mkFileChunkReader contents chunk_size).num_chunks
        = (contents.length + cs - 1) / cs := by
      unfold FileChunkReader.num_chunks FileChunkReader.file_size
      rw [hr]
      simp [hemp]
    refine ⟨?_, ?_, ?_⟩
    · rw [hnum, hchunks, chunkLoop_length cs contents.length hcs]
    · intro hge
      unfold FileChunkReader.read_chunk
      rw [if_pos hge]
    · intro hlt
      unfold FileChunkReader.read_chunk
      rw [if_neg (by omega)]
      rw [hnum] at hlt
      have hoff : index * cs < contents.length :=
        (lt_ceil_iff cs contents.length index hcs hpos).mp hlt
      rw [hchunks, chunkLoop_getD cs contents.length index hcs hpos hlt]
      unfold FileChunkReader.chunk_bytes FileChunkReader.file_size sliceBytes
      rw [hr]
      simp only
      rw [if_neg (by omega)]

/-- Witness for the read_chunk specification at concrete inputs. -/
theorem read_chunk_spec_witness :
    (mkFileChunkReader [9, 8, 7, 6, 5] 2).read_chunk 2 = .ok [5] ∧
    (mkFileChunkReader [9, 8, 7, 6, 5] 2).read_chunk 3
      = .error "chunk index out of range" := by
  have h := read_chunk_spec [9, 8, 7, 6, 5] 2 2
  have h3 := read_chunk_spec [9, 8, 7, 6, 5] 2 3
  refine ⟨?_, ?_⟩
  · rw [h.2.2 (by decide)]
    rfl
  · exact h3.2.1 (by decide)

/-! ### Integrity (src/integrity.h; integrity.cpp is absent) -/

/-- One reflected CRC-32C bit step with the Castagnoli polynomial. -/
def crcBitStep (c : Nat) : Nat :=
  if c % 2 = 1 then (c / 2) ^^^ 0x82F63B78 else c / 2

/-- Eight bit steps, one processed byte. -/
def crcBits : Nat → Nat → Nat
  | 0, c => c
  | k + 1, c => crcBits k (crcBitStep c)

/-- Fold the running CRC register over a byte list. -/
def crcFold (data : List Nat) (c : Nat) : Nat :=
  data.foldl (fun acc b => crcBits 8 (acc ^^^ b % 256)) c

/-- Modelled from the spec: integrity.cpp is absent from the sources, so
this is the standard reflected CRC-32C over a byte span that integrity.h
declares: invert the seed, fold the register over the data, invert back. -/
def crc32c (data : List Nat) (seed : Nat) : Nat :=
  crcFold data (seed ^^^ 0xFFFFFFFF) ^^^ 0xFFFFFFFF

/-- Modelled from the spec: crc32c_concat computes CRC-32C of two spans as
if concatenated without building the concatenation, which is the standard
chaining of the second span onto the CRC of the first. -/
def crc32c_concat (first second : List Nat) (seed : Nat) : Nat :=
  crc32c second (crc32c first seed)

/-- Modelled from the spec: the secondary fast hash selected by
HashAlgorithm::XXHash32; its implementation file is absent, so any
deterministic 32-bit fold represents it. -/
def xxhash32 (data : List Nat) (seed : Nat) : Nat :=
  data.foldl (fun acc b => (acc * 2654435761 + b % 256 + 1) % 2 ^ 32)
    ((seed + 374761393) % 2 ^ 32)

/-- HashAlgorithm from integrity.h. -/
inductive HashAlgorithm where
  | CRC32
  | XXHash32
deriving DecidableEq

/-- packet_checksum from integrity.h: checksum the packet header (the
checksum field trails the packet, so the header needs no hole cut out)
concatenated with the payload, using the algorithm recorded in the
packet. -/
def packet_checksum (header payload : List Nat) (algo : HashAlgorithm) : Nat :=
  match algo with
  | .CRC32 => crc32c_concat header payload 0
  | .XXHash32 => xxhash32 (header ++ payload) 0

theorem xor_xor_cancel (a m : Nat) : a ^^^ m ^^^ m = a := by
  rw [Nat.xor_assoc, Nat.xor_self, Nat.xor_zero]

/-- C9: crc32c_concat over two spans equals crc32c over their
concatenation, for every seed. -/
theorem crc32c_concat_eq_crc32c_append (a b : List Nat) (seed : Nat) :
    crc32c_concat a b seed = crc32c (a ++ b) seed := by
  unfold crc32c_concat crc32c
  rw [xor_xor_cancel]
  unfold crcFold
  rw [List.foldl_append]

/-! ### Crypto (crypto.h/crypto.cpp are absent from the sources) -/

/-- Modelled from the spec: the derived-key length constant; the spec fixes
only that keys have a fixed length. -/
def CRYPTO_KEY_BYTES : Nat := 32

/-- One mixing step used by the modelled key derivation and keystream. -/
def mixStep (acc b : Nat) : Nat := (acc * 131 + b + 17) % 2 ^ 32

/-- Modelled from the spec: derive_key deterministically derives a
CRYPTO_KEY_BYTES-long symmetric key from the password bytes and the
session's 16-byte FileId (the FileId enters as associated data). -/
def derive_key (password file_id : List Nat) : List Nat :=
  (List.range CRYPTO_KEY_BYTES).map (fun j =>
    (password.foldl mixStep (j * 31 + file_id.foldl mixStep 7)) % 256)

/-- Modelled from the spec: one keystream byte for position `j` of the
chunk with index `idx`, keyed by the derived key and the FileId so the
chunk index acts as a nonce component. -/
def ksByte (key file_id : List Nat) (idx j : Nat) : Nat :=
  (key.foldl mixStep (idx * 9176 + j * 31 + file_id.foldl mixStep 3)) % 256

/-- XOR a byte list against a position-indexed keystream. -/
def xorKs (f : Nat → Nat) : Nat → List Nat → List Nat
  | _, [] => []
  | j, x :: xs => (x ^^^ f j) :: xorKs f (j + 1) xs

/-- Modelled from the spec: the 32-bit authentication tag appended by
encrypt_chunk (the encryption overhead the chunker reserves room for),
computed over the ciphertext body with the key, FileId and chunk index. -/
def chunkTag (key file_id : List Nat) (idx : Nat) (body : List Nat) : Nat :=
  body.foldl mixStep
    (key.foldl mixStep (idx * 523 + file_id.foldl mixStep 11))

/-- Modelled from the spec: encrypt_chunk XORs the plaintext against a
keystream keyed by (key, file_id, chunk index) and appends a 4-byte
authentication tag, so identical plaintext chunks at different indices give
different ciphertext and decryption with a wrong key is detected. -/
def encrypt_chunk (data key file_id : List Nat) (idx : Nat) : List Nat :=
  let body := xorKs (ksByte key file_id idx) 0 data
  body ++ le32 (chunkTag key file_id idx body)

/-- Modelled from the spec: the decrypt path of encrypt_chunk; verifies the
trailing tag and undoes the keystream, failing on a short buffer or a tag
mismatch (wrong key, wrong index, or tampering). -/
def decrypt_chunk (data key file_id : List Nat) (idx : Nat) : Option (List Nat) :=
  if data.length < 4 then none
  else
    let body := data.take (data.length - 4)
    let tag := data.drop (data.length - 4)
    if tag = le32 (chunkTag key file_id idx body) then
      some (xorKs (ksByte key file_id idx) 0 body)
    else none

theorem xorKs_length (f : Nat → Nat) : ∀ j l, (xorKs f j l).length = l.length := by
  intro j l
  induction l generalizing j with
  | nil => rfl
  | cons x xs ih =>
    rw [xorKs]
    simp [ih]

theorem xorKs_involutive (f : Nat → Nat) : ∀ j l, xorKs f j (xorKs f j l) = l := by
  intro j l
  induction l generalizing j with
  | nil => rfl
  | cons x xs ih =>
    rw [xorKs, xorKs, xor_xor_cancel, ih]

/-- Decrypting what encrypt_chunk produced, with the same key, FileId and
chunk index, recovers the plaintext. -/
theorem decrypt_encrypt_chunk (data key file_id : List Nat) (idx : Nat) :
    decrypt_chunk (encrypt_chunk data key file_id idx) key file_id idx
      = some data := by
  unfold encrypt_chunk decrypt_chunk
  simp only [List.length_append, le32_length, xorKs_length]
  rw [if_neg (by omega)]
  have hb : data.length + 4 - 4 = (xorKs (ksByte key file_id idx) 0 data).length := by
    rw [xorKs_length]
    omega
  rw [hb, List.take_left, List.drop_left, if_pos rfl, xorKs_involutive]

/-! ### Packet wire format (spec section 6; encoder.cpp/decoder.cpp are
absent, configuration.h gives the offsets their names) -/

/-- Header size implied by the wire format: 16-byte file id, three 4-byte
fields, one 2-byte field, two 4-byte fields, one 2-byte field and one flags
byte. -/
def HEADER_SIZE : Nat := 41

/-- Offset of the 4-byte chunk-index field (right after the file id), as
used by the memcpy in ms_decode. -/
def CHUNK_INDEX_OFF : Nat := 16

/-- Offset of the flags byte (last header byte). -/
def FLAGS_OFF : Nat := 40

/-- Flags bit 0: this packet belongs to the last chunk of the file. -/
def LastChunk : Nat := 1

/-- Flags bit 1: this chunk is encrypted. -/
def EncryptedChunk : Nat := 2

/-- Read one byte at an offset, 0 past the end. -/
def readByte (l : List Nat) (off : Nat) : Nat := (l.drop off).getD 0 0

/-- Modelled from the spec: the checksum algorithm is recorded in every
packet so the decoder can pick the matching verifier; the spec fixes only
flags bits 0 and 1, so the algorithm identifier rides in spare flags
bit 2. -/
def flagsAlgo (flags : Nat) : HashAlgorithm :=
  if flags.testBit 2 then .XXHash32 else .CRC32

/-- Flags byte written by the encoder. -/
def flagsByte (isLast encrypted : Bool) (algo : HashAlgorithm) : Nat :=
  (if isLast then LastChunk else 0) + (if encrypted then EncryptedChunk else 0) +
    (match algo with | .XXHash32 => 4 | .CRC32 => 0)

/-- Parsed view of one packet, fields in wire order. -/
structure PacketView where
  fileId : List Nat
  chunkIndex : Nat
  chunkSize : Nat
  originalSize : Nat
  symbolSize : Nat
  numSource : Nat
  blockId : Nat
  payloadLen : Nat
  flags : Nat
  payload : List Nat
deriving DecidableEq

/-- Packet header serialization, fields in the wire-format order of spec
section 6. -/
def packetHeader (fid : List Nat) (ci csz osz ss nsrc bid plen flags : Nat) :
    List Nat :=
  fid ++ le32 ci ++ le32 csz ++ le32 osz ++ le16 ss ++ le32 nsrc ++ le32 bid ++
    le16 plen ++ [flags % 256]

/-- Modelled from the spec: full packet serialization as emitted by
Encoder::encode_chunk / write_packet_header — header, payload, then the
4-byte checksum over header and payload. -/
def mkPacket (fid : List Nat) (algo : HashAlgorithm)
    (ci csz osz ss nsrc bid : Nat) (pay : List Nat) (flags : Nat) : List Nat :=
  let hdr := packetHeader fid ci csz osz ss nsrc bid pay.length flags
  hdr ++ pay ++ le32 (packet_checksum hdr pay algo)

/-- Modelled from the spec: packet parsing and checksum verification as
performed by Decoder::process_packet — length checks, field extraction at
the wire offsets, and comparison of the stored trailing checksum against a
recomputation with the algorithm recorded in the packet. -/
def parsePacket (bs : List Nat) : Option PacketView :=
  if bs.length < HEADER_SIZE then none
  else if bs.length ≠ HEADER_SIZE + readLE16 bs 38 + 4 then none
  else if packet_checksum (bs.take HEADER_SIZE)
      ((bs.drop HEADER_SIZE).take (readLE16 bs 38))
      (flagsAlgo (readByte bs FLAGS_OFF)) % 2 ^ 32
      ≠ readLE32 bs (HEADER_SIZE + readLE16 bs 38) then none
  else
    some { fileId := bs.take 16, chunkIndex := readLE32 bs CHUNK_INDEX_OFF,
           chunkSize := readLE32 bs 20, originalSize := readLE32 bs 24,
           symbolSize := readLE16 bs 28, numSource := readLE32 bs 30,
           blockId := readLE32 bs 34, payloadLen := readLE16 bs 38,
           flags := readByte bs FLAGS_OFF,
           payload := (bs.drop HEADER_SIZE).take (readLE16 bs 38) }

theorem take_append_of_length {α : Type} (l1 l2 : List α) (n : Nat)
    (h : l1.length = n) : (l1 ++ l2).take n = l1 := by
  subst h
  exact List.take_left l1 l2

theorem drop_append_of_length {α : Type} (l1 l2 : List α) (n : Nat)
    (h : l1.length = n) : (l1 ++ l2).drop n = l2 := by
  subst h
  exact List.drop_left l1 l2

theorem packetHeader_length (fid : List Nat) (ci csz osz ss nsrc bid plen flags : Nat)
    (hfid : fid.length = 16) :
    (packetHeader fid ci csz osz ss nsrc bid plen flags).length = HEADER_SIZE := by
  unfold packetHeader HEADER_SIZE
  simp [hfid, le32, le16]

/-- Length of a serialized packet. -/
theorem mkPacket_length (fid : List Nat) (algo : HashAlgorithm)
    (ci csz osz ss nsrc bid : Nat) (pay : List Nat) (flags : Nat)
    (hfid : fid.length = 16) :
    (mkPacket fid algo ci csz osz ss nsrc bid pay flags).length
      = HEADER_SIZE + pay.length + 4 := by
  unfold mkPacket
  simp only [List.length_append, le32_length,
    packetHeader_length fid ci csz osz ss nsrc bid pay.length flags hfid]

theorem readLE32Head_le32_bare (n : Nat) : readLE32Head (le32 n) = n % 2 ^ 32 := by
  simp only [le32, readLE32Head, List.getD_cons_zero, List.getD_cons_succ]
  omega

/-- Round trip: parsing a serialized packet recovers every field, provided
each numeric field fits its wire width and the flags byte records the
checksum algorithm used. -/
theorem parse_mkPacket (fid : List Nat) (algo : HashAlgorithm)
    (ci csz osz ss nsrc bid : Nat) (pay : List Nat) (flags : Nat)
    (hfid : fid.length = 16) (hci : ci < 2 ^ 32) (hcsz : csz < 2 ^ 32)
    (hosz : osz < 2 ^ 32) (hss : ss < 2 ^ 16) (hns : nsrc < 2 ^ 32)
    (hbid : bid < 2 ^ 32) (hpl : pay.length < 2 ^ 16) (hfl : flags < 256)
    (halgo : flagsAlgo flags = algo) :
    parsePacket (mkPacket fid algo ci csz osz ss nsrc bid pay flags)
      = some ⟨fid, ci, csz, osz, ss, nsrc, bid, pay.length, flags, pay⟩ := by
  set hdr := packetHeader fid ci csz osz ss nsrc bid pay.length flags with hhdr
  set chk := packet_checksum hdr pay algo with hchk
  set bs := mkPacket fid algo ci csz osz ss nsrc bid pay flags with hbs
  have hlen : bs.length = HEADER_SIZE + pay.length + 4 :=
    mkPacket_length fid algo ci csz osz ss nsrc bid pay flags hfid
  have hnf : bs = fid ++ (le32 ci ++ (le32 csz ++ (le32 osz ++ (le16 ss ++
      (le32 nsrc ++ (le32 bid ++ (le16 pay.length ++
        ([flags % 256] ++ (pay ++ le32 chk))))))))) := by
    rw [hbs, hchk, hhdr]
    unfold mkPacket packetHeader
    simp [List.append_assoc]
  have h16 : bs.drop 16 = le32 ci ++ (le32 csz ++ (le32 osz ++ (le16 ss ++
      (le32 nsrc ++ (le32 bid ++ (le16 pay.length ++
        ([flags % 256] ++ (pay ++ le32 chk)))))))) := by
    rw [hnf]
    exact drop_append_of_length _ _ _ hfid
  have h20 : bs.drop 20 = le32 csz ++ (le32 osz ++ (le16 ss ++ (le32 nsrc ++
      (le32 bid ++ (le16 pay.length ++ ([flags % 256] ++ (pay ++ le32 chk))))))) := by
    rw [show (20 : Nat) = 16 + 4 from rfl, ← List.drop_drop, h16]
    exact drop_le32 _ _
  have h24 : bs.drop 24 = le32 osz ++ (le16 ss ++ (le32 nsrc ++ (le32 bid ++
      (le16 pay.length ++ ([flags % 256] ++ (pay ++ le32 chk)))))) := by
    rw [show (24 : Nat) = 20 + 4 from rfl, ← List.drop_drop, h20]
    exact drop_le32 _ _
  have h28 : bs.drop 28 = le16 ss ++ (le32 nsrc ++ (le32 bid ++
      (le16 pay.length ++ ([flags % 256] ++ (pay ++ le32 chk))))) := by
    rw [show (28 : Nat) = 24 + 4 from rfl, ← List.drop_drop, h24]
    exact drop_le32 _ _
  have h30 : bs.drop 30 = le32 nsrc ++ (le32 bid ++
      (le16 pay.length ++ ([flags % 256] ++ (pay ++ le32 chk)))) := by
    rw [show (30 : Nat) = 28 + 2 from rfl, ← List.drop_drop, h28]
    exact drop_le16 _ _
  have h34 : bs.drop 34 = le32 bid ++
      (le16 pay.length ++ ([flags % 256] ++ (pay ++ le32 chk))) := by
    rw [show (34 : Nat) = 30 + 4 from rfl, ← List.drop_drop, h30]
    exact drop_le32 _ _
  have h38 : bs.drop 38 = le16 pay.length ++ ([flags % 256] ++ (pay ++ le32 chk)) := by
    rw [show (38 : Nat) = 34 + 4 from rfl, ← List.drop_drop, h34]
    exact drop_le32 _ _
  have h40 : bs.drop FLAGS_OFF = [flags % 256] ++ (pay ++ le32 chk) := by
    rw [show FLAGS_OFF = 38 + 2 from rfl, ← List.drop_drop, h38]
    exact drop_le16 _ _
  have h41 : bs.drop HEADER_SIZE = pay ++ le32 chk := by
    rw [show HEADER_SIZE = FLAGS_OFF + 1 from rfl, ← List.drop_drop, h40]
    rfl
  have rpl : readLE16 bs 38 = pay.length := by
    rw [readLE16, h38, readLE16Head_le16]
    omega
  have rci : readLE32 bs CHUNK_INDEX_OFF = ci := by
    rw [readLE32, show CHUNK_INDEX_OFF = 16 from rfl, h16, readLE32Head_le32]
    omega
  have rcsz : readLE32 bs 20 = csz := by
    rw [readLE32, h20, readLE32Head_le32]
    omega
  have rosz : readLE32 bs 24 = osz := by
    rw [readLE32, h24, readLE32Head_le32]
    omega
  have rss : readLE16 bs 28 = ss := by
    rw [readLE16, h28, readLE16Head_le16]
    omega
  have rns : readLE32 bs 30 = nsrc := by
    rw [readLE32, h30, readLE32Head_le32]
    omega
  have rbid : readLE32 bs 34 = bid := by
    rw [readLE32, h34, readLE32Head_le32]
    omega
  have rfg : readByte bs FLAGS_OFF = flags := by
    rw [readByte, h40]
    simp only [List.cons_append, List.getD_cons_zero]
    omega
  have rstored : readLE32 bs (HEADER_SIZE + pay.length) = chk % 2 ^ 32 := by
    rw [readLE32, ← List.drop_drop, h41,
      drop_append_of_length pay (le32 chk) pay.length rfl, readLE32Head_le32_bare]
  have htk16 : bs.take 16 = fid := by
    rw [hnf]
    exact take_append_of_length _ _ _ hfid
  have htk41 : bs.take HEADER_SIZE = hdr := by
    rw [hbs]
    unfold mkPacket
    rw [← hhdr, List.append_assoc]
    exact take_append_of_length _ _ _ (packetHeader_length _ _ _ _ _ _ _ _ _ hfid)
  have hpay : (bs.drop HEADER_SIZE).take pay.length = pay := by
    rw [h41]
    exact take_append_of_length _ _ _ rfl
  unfold parsePacket
  rw [rpl, rfg, rci, rcsz, rosz, rss, rns, rbid, htk16, htk41, hpay, halgo,
    rstored, hlen, ← hchk]
  rw [if_neg (by omega), if_neg (by omega), if_neg (by omega)]

/-! ### Encoder (src/encoder.h; encoder.cpp is absent) -/

/-- Modelled from the spec: the whole-chunk cryptographic digest declared in
integrity.h; its implementation file is absent, so a deterministic 32-byte
fold stands in. -/
def sha256 (data : List Nat) : List Nat :=
  (List.range 32).map (fun j => (data.foldl mixStep (j + 97)) % 256)

/-- ChunkManifestEntry from encoder.h. -/
structure ChunkManifestEntry where
  chunk_index : Nat
  chunk_size : Nat
  original_size : Nat
  sha256 : List Nat
  N : Nat
  T : Nat
deriving DecidableEq

/-- Modelled from the spec: the fixed symbol size used to split a chunk into
packet payloads; its constant is not observable in the sources, and the
encode/decode theorems are proved for every positive value below 2^16. -/
def SYMBOL_SIZE : Nat := 4

/-- Number of source symbols for a chunk: at least one even for an empty
chunk (the spec requires N ≥ T ≥ 1 and a packet for empty input), otherwise
the ceiling of the data length over the symbol size. -/
def numSourceOf (ss len : Nat) : Nat :=
  if len = 0 then 1 else (len + ss - 1) / ss

/-- Symbol `j` of a chunk: the j-th `ss`-byte window. -/
def symbolOf (data : List Nat) (ss j : Nat) : List Nat :=
  (data.drop (j * ss)).take ss

/-- Modelled from the spec: Encoder::encode_chunk — split the chunk into
fixed-size symbols, emit one self-describing packet per symbol (a systematic
code with N = T, which satisfies the spec contract that any T distinct
symbols of the N reconstruct the chunk), and produce the manifest entry
mirroring the redundancy parameters and digest.  The symbol size is a
parameter here so the theorems quantify over it; Encoder.encode_chunk
instantiates SYMBOL_SIZE. -/
def encodeChunkAux (fid : List Nat) (algo : HashAlgorithm) (ss ci : Nat)
    (data : List Nat) (isLast encrypted : Bool) :
    List (List Nat) × ChunkManifestEntry :=
  let nsrc := numSourceOf ss data.length
  let flags := flagsByte isLast encrypted algo
  ((List.range nsrc).map (fun j =>
      mkPacket fid algo ci data.length data.length ss nsrc j
        (symbolOf data ss j) flags),
   { chunk_index := ci, chunk_size := data.length,
     original_size := data.length, sha256 := sha256 data,
     N := nsrc, T := nsrc })

/-- Encoder from encoder.h: a FileId and the per-session checksum
algorithm. -/
structure Encoder where
  id : List Nat
  algo : HashAlgorithm
deriving DecidableEq

/-- Encoder::encode_chunk at the configured symbol size. -/
def Encoder.encode_chunk (e : Encoder) (ci : Nat) (data : List Nat)
    (isLast encrypted : Bool) : List (List Nat) × ChunkManifestEntry :=
  encodeChunkAux e.id e.algo SYMBOL_SIZE ci data isLast encrypted

/-- make_file_id from media_storage_api.cpp: a 16-byte array filled with
`id[i] = i` — the same fixed identifier in every session. -/
def make_file_id : List Nat := List.range 16

/-! ### Decoder (decoder.h/decoder.cpp are absent from the sources) -/

/-- Association-list lookup keyed by Nat. -/
def lookupA {α : Type} : List (Nat × α) → Nat → Option α
  | [], _ => none
  | e :: rest, k => if e.1 = k then some e.2 else lookupA rest k

/-- Association-list insert-or-update keyed by Nat. -/
def setA {α : Type} : List (Nat × α) → Nat → α → List (Nat × α)
  | [], k, v => [(k, v)]
  | e :: rest, k, v => if e.1 = k then (k, v) :: rest else e :: setA rest k v

/-- Per-chunk collection state: the declared source-symbol count, the
symbols observed so far keyed by block id, and the reconstructed bytes once
complete. -/
structure ChunkState where
  numSource : Nat
  syms : List (Nat × List Nat)
  recon : Option (List Nat)
deriving DecidableEq

/-- Reassemble a chunk from its symbols in block-id order. -/
def assembleSyms (n : Nat) (syms : List (Nat × List Nat)) : List Nat :=
  ((List.range n).map (fun j => (lookupA syms j).getD [])).flatten

/-- Modelled from the spec: add one observed symbol to a chunk — duplicates
of an already-reconstructed chunk or of an already-seen block id are
accepted and ignored (idempotent); once all declared source symbols are
present the chunk transitions to Reconstructed, reported once via the
returned Bool. -/
def ChunkState.addSym (cst : ChunkState) (bid : Nat) (pay : List Nat) :
    ChunkState × Bool :=
  if cst.recon.isSome then (cst, false)
  else if (lookupA cst.syms bid).isSome then (cst, false)
  else
    let syms := (bid, pay) :: cst.syms
    if (List.range cst.numSource).all (fun j => (lookupA syms j).isSome) then
      ({ cst with syms := syms, recon := some (assembleSyms cst.numSource syms) },
        true)
    else ({ cst with syms := syms }, false)

/-- Modelled from the spec: the Decoder's accumulated session state — the
FileId captured from the first valid packet, per-chunk collection state,
whether any packet declared its chunk encrypted, and a count of dropped
packets. -/
structure Decoder where
  fileId : Option (List Nat)
  chunks : List (Nat × ChunkState)
  encryptedSeen : Bool
  corrupted : Nat
deriving DecidableEq

/-- Fresh decoder. -/
def Decoder.init : Decoder := ⟨none, [], false, 0⟩

/-- Accept a parsed packet whose FileId has been admitted: record the
encrypted flag and route the symbol to its chunk's state. -/
def Decoder.accept (d : Decoder) (v : PacketView) : Decoder × Bool :=
  let d1 : Decoder :=
    { d with fileId := some v.fileId,
             encryptedSeen := d.encryptedSeen || v.flags.testBit 1 }
  let cst := (lookupA d1.chunks v.chunkIndex).getD ⟨v.numSource, [], none⟩
  let pr := cst.addSym v.blockId v.payload
  ({ d1 with chunks := setA d1.chunks v.chunkIndex pr.1 }, pr.2)

/-- Modelled from the spec: Decoder::process_packet — parse and verify the
packet (corrupt packets are dropped and counted, not fatal), capture the
FileId from the first valid packet and drop foreign FileIds afterwards,
then collect the symbol; the Bool reports whether this packet completed its
chunk. -/
def Decoder.process_packet (d : Decoder) (bs : List Nat) : Decoder × Bool :=
  match parsePacket bs with
  | none => ({ d with corrupted := d.corrupted + 1 }, false)
  | some v =>
    match d.fileId with
    | some f =>
      if f = v.fileId then d.accept v
      else ({ d with corrupted := d.corrupted + 1 }, false)
    | none => d.accept v

/-- is_encrypted accessor: whether any processed packet declared its chunk
encrypted. -/
def Decoder.is_encrypted (d : Decoder) : Bool := d.encryptedSeen

/-- file_id accessor. -/
def Decoder.file_id (d : Decoder) : Option (List Nat) := d.fileId

/-- Modelled from the spec: Decoder::write_assembled_file — iterate chunks
0..expected-1; a chunk that is not Reconstructed fails the whole call; an
encrypted session decrypts each chunk with the stored key and the chunk
index before writing; output is the concatenation in index order. -/
def Decoder.write_assembled (d : Decoder) (key : Option (List Nat))
    (expected : Nat) : Option (List Nat) :=
  (List.range expected).foldl (fun acc i =>
    acc.bind (fun out =>
      (lookupA d.chunks i).bind (fun cst =>
        cst.recon.bind (fun data =>
          if d.encryptedSeen then
            key.bind (fun k =>
              (decrypt_chunk data k (d.fileId.getD []) i).map (fun p => out ++ p))
          else some (out ++ data))))) (some [])

/-! ### ms_encode / ms_decode (src/media_storage_api.cpp) -/

/-- ms_status_t from include/media_storage.h. -/
inductive MsStatus where
  | ok
  | invalidArgs
  | fileNotFound
  | ioError
  | encodeFailed
  | decodeFailed
  | cryptoError
  | incomplete
deriving DecidableEq

/-- Modelled from the spec: the reduced chunk size used when encryption is
requested (CHUNK_SIZE_PLAIN_MAX_ENCRYPTED in the absent configuration.h),
leaving room within the frame byte budget for the 4-byte encryption
overhead; the spec fixes only that it is a smaller positive constant than
CHUNK_SIZE_BYTES. -/
def CHUNK_SIZE_PLAIN_MAX_ENCRYPTED : Nat := 6

/-- The encode loop of ms_encode (lines 84-111), with the input file
abstracted to its contents and the video carrier to the emitted packet
sequence: read each chunk through the FileChunkReader, encrypt it when
requested, encode it into packets with the last-chunk mark on the final
chunk. -/
def encodePipeline (csArg ss : Nat) (fid : List Nat) (algo : HashAlgorithm)
    (encrypt : Bool) (key : List Nat) (input : List Nat) : List (List Nat) :=
  let r := mkFileChunkReader input csArg
  let n := r.num_chunks
  ((List.range n).map (fun i =>
    let data := r.chunk_bytes i
    let d2 := if encrypt then encrypt_chunk data key fid i else data
    (encodeChunkAux fid algo ss i d2 (i = n - 1) encrypt).1)).flatten

/-- Mirror of ms_encode lines 54-79 up to key derivation: the argument
check, then `key = derive_key(password, file_id)` with
`file_id = make_file_id()`.  The input file contents are a parameter only
to exhibit how the derived key depends on them. -/
def ms_encode_session_key (input : List Nat) (encrypt : Bool) (pw : List Nat) :
    Option (List Nat) :=
  if encrypt ∧ pw.length = 0 then none
  else if encrypt then some (derive_key pw make_file_id) else none

/-- ms_encode from media_storage_api.cpp, with files abstracted to byte
contents and the video carrier to the packet sequence handed to it: checks
arguments, chunks the input with the encryption-dependent chunk size,
derives the session key, and encodes chunk by chunk. -/
def ms_encode_pure (input : List Nat) (encrypt : Bool) (pw : List Nat)
    (algo : HashAlgorithm) : Except MsStatus (List (List Nat)) :=
  if encrypt ∧ pw.length = 0 then .error .invalidArgs
  else
    let key := if encrypt then derive_key pw make_file_id else []
    .ok (encodePipeline (if encrypt then CHUNK_SIZE_PLAIN_MAX_ENCRYPTED else 0)
      SYMBOL_SIZE make_file_id algo encrypt key input)

/-- Per-frame/per-packet loop state of ms_decode (lines 147-153). -/
structure DecodeLoopState where
  dec : Decoder
  extracted : Nat
  maxIdx : Nat
  foundLast : Bool
  lastIdx : Nat
  decoded : Nat
deriving DecidableEq

/-- Initial loop state of ms_decode. -/
def initLoopState : DecodeLoopState := ⟨Decoder.init, 0, 0, false, 0, 0⟩

/-- One packet of the ms_decode loop body (lines 171-191): count the
extraction, scan the raw header for the chunk index and the last-chunk flag
whenever the buffer is at least HEADER_SIZE long (even if the packet later
fails verification), then hand the packet to the decoder and count a chunk
completion. -/
def decodeStep (st : DecodeLoopState) (bs : List Nat) : DecodeLoopState :=
  let st1 := { st with extracted := st.extracted + 1 }
  let st2 :=
    if HEADER_SIZE ≤ bs.length then
      let flags := readByte bs FLAGS_OFF
      let ci := readLE32 bs CHUNK_INDEX_OFF
      let stm := if st1.maxIdx < ci then { st1 with maxIdx := ci } else st1
      if flags.testBit 0 then { stm with foundLast := true, lastIdx := ci }
      else stm
    else st1
  let pr := st2.dec.process_packet bs
  { st2 with dec := pr.1,
             decoded := if pr.2 then st2.decoded + 1 else st2.decoded }

/-- The frame loop of ms_decode, over the packet buffers the video decoder
yields per frame. -/
def decodeLoop (frames : List (List (List Nat))) : DecodeLoopState :=
  frames.foldl (fun st frame => frame.foldl decodeStep st) initLoopState

/-- expected_chunks as computed by ms_decode lines 203-205. -/
def expectedChunks (st : DecodeLoopState) : Nat :=
  if st.foundLast then st.lastIdx + 1 else st.maxIdx + 1

/-- ms_decode from media_storage_api.cpp, with the video abstracted to the
per-frame packet buffers it yields and the output file to the returned
bytes: run the loop, fail when nothing was extracted, compare completed
chunks against the declared count, derive the key from the captured FileId
for an encrypted stream (missing password is a crypto error), and assemble. -/
def ms_decode_pure (frames : List (List (List Nat))) (pw : List Nat) :
    Except MsStatus (List Nat) :=
  if (decodeLoop frames).extracted = 0 then .error .decodeFailed
  else if (decodeLoop frames).decoded < expectedChunks (decodeLoop frames) then
    .error .incomplete
  else if (decodeLoop frames).dec.is_encrypted then
    if pw.length = 0 then .error .cryptoError
    else
      ((decodeLoop frames).dec.write_assembled
        (some (derive_key pw ((decodeLoop frames).dec.file_id.getD [])))
        (expectedChunks (decodeLoop frames))).elim
        (.error .decodeFailed) .ok
  else
    ((decodeLoop frames).dec.write_assembled none
      (expectedChunks (decodeLoop frames))).elim
      (.error .decodeFailed) .ok

/-! ### Flags byte facts -/

theorem flagsByte_testBit0 (l e : Bool) (a : HashAlgorithm) :
    (flagsByte l e a).testBit 0 = l := by
  cases l <;> cases e <;> cases a <;> decide

theorem flagsByte_testBit1 (l e : Bool) (a : HashAlgorithm) :
    (flagsByte l e a).testBit 1 = e := by
  cases l <;> cases e <;> cases a <;> decide

theorem flagsByte_lt (l e : Bool) (a : HashAlgorithm) : flagsByte l e a < 256 := by
  cases l <;> cases e <;> cases a <;> decide

theorem flagsAlgo_flagsByte (l e : Bool) (a : HashAlgorithm) :
    flagsAlgo (flagsByte l e a) = a := by
  cases l <;> cases e <;> cases a <;> decide

/-- Raw header scan of a serialized packet, as ms_decode performs before
verification: the buffer is long enough, the flags byte and the chunk-index
field read back. -/
theorem mkPacket_scan (fid : List Nat) (algo : HashAlgorithm)
    (ci csz osz ss nsrc bid : Nat) (pay : List Nat) (flags : Nat)
    (hfid : fid.length = 16) (hci : ci < 2 ^ 32) (hfl : flags < 256) :
    HEADER_SIZE ≤ (mkPacket fid algo ci csz osz ss nsrc bid pay flags).length ∧
    readByte (mkPacket fid algo ci csz osz ss nsrc bid pay flags) FLAGS_OFF = flags ∧
    readLE32 (mkPacket fid algo ci csz osz ss nsrc bid pay flags) CHUNK_INDEX_OFF = ci := by
  set hdr := packetHeader fid ci csz osz ss nsrc bid pay.length flags with hhdr
  set chk := packet_checksum hdr pay algo with hchk
  set bs := mkPacket fid algo ci csz osz ss nsrc bid pay flags with hbs
  have hlen : bs.length = HEADER_SIZE + pay.length + 4 :=
    mkPacket_length fid algo ci csz osz ss nsrc bid pay flags hfid
  have hnf : bs = fid ++ (le32 ci ++ (le32 csz ++ (le32 osz ++ (le16 ss ++
      (le32 nsrc ++ (le32 bid ++ (le16 pay.length ++
        ([flags % 256] ++ (pay ++ le32 chk))))))))) := by
    rw [hbs, hchk, hhdr]
    unfold mkPacket packetHeader
    simp [List.append_assoc]
  have h16 : bs.drop 16 = le32 ci ++ (le32 csz ++ (le32 osz ++ (le16 ss ++
      (le32 nsrc ++ (le32 bid ++ (le16 pay.length ++
        ([flags % 256] ++ (pay ++ le32 chk)))))))) := by
    rw [hnf]
    exact drop_append_of_length _ _ _ hfid
  have h20 : bs.drop 20 = le32 csz ++ (le32 osz ++ (le16 ss ++ (le32 nsrc ++
      (le32 bid ++ (le16 pay.length ++ ([flags % 256] ++ (pay ++ le32 chk))))))) := by
    rw [show (20 : Nat) = 16 + 4 from rfl, ← List.drop_drop, h16]
    exact drop_le32 _ _
  have h24 : bs.drop 24 = le32 osz ++ (le16 ss ++ (le32 nsrc ++ (le32 bid ++
      (le16 pay.length ++ ([flags % 256] ++ (pay ++ le32 chk)))))) := by
    rw [show (24 : Nat) = 20 + 4 from rfl, ← List.drop_drop, h20]
    exact drop_le32 _ _
  have h28 : bs.drop 28 = le16 ss ++ (le32 nsrc ++ (le32 bid ++
      (le16 pay.length ++ ([flags % 256] ++ (pay ++ le32 chk))))) := by
    rw [show (28 : Nat) = 24 + 4 from rfl, ← List.drop_drop, h24]
    exact drop_le32 _ _
  have h30 : bs.drop 30 = le32 nsrc ++ (le32 bid ++
      (le16 pay.length ++ ([flags % 256] ++ (pay ++ le32 chk)))) := by
    rw [show (30 : Nat) = 28 + 2 from rfl, ← List.drop_drop, h28]
    exact drop_le16 _ _
  have h34 : bs.drop 34 = le32 bid ++
      (le16 pay.length ++ ([flags % 256] ++ (pay ++ le32 chk))) := by
    rw [show (34 : Nat) = 30 + 4 from rfl, ← List.drop_drop, h30]
    exact drop_le32 _ _
  have h38 : bs.drop 38 = le16 pay.length ++ ([flags % 256] ++ (pay ++ le32 chk)) := by
    rw [show (38 : Nat) = 34 + 4 from rfl, ← List.drop_drop, h34]
    exact drop_le32 _ _
  have h40 : bs.drop FLAGS_OFF = [flags % 256] ++ (pay ++ le32 chk) := by
    rw [show FLAGS_OFF = 38 + 2 from rfl, ← List.drop_drop, h38]
    exact drop_le16 _ _
  refine ⟨by omega, ?_, ?_⟩
  · rw [readByte, h40]
    simp only [List.cons_append, List.getD_cons_zero]
    omega
  · rw [readLE32, show CHUNK_INDEX_OFF = 16 from rfl, h16, readLE32Head_le32]
    omega

/-! ### Association-list facts -/

theorem lookupA_setA_self {α : Type} (l : List (Nat × α)) (k : Nat) (v : α) :
    lookupA (setA l k v) k = some v := by
  induction l with
  | nil => simp [setA, lookupA]
  | cons e rest ih =>
    by_cases he : e.1 = k
    · simp [setA, he, lookupA]
    · simp [setA, he, lookupA, ih]

theorem lookupA_setA_ne {α : Type} (l : List (Nat × α)) (k k' : Nat) (v : α)
    (h : k' ≠ k) : lookupA (setA l k v) k' = lookupA l k' := by
  have hkk : ¬(k = k') := fun hh => h hh.symm
  induction l with
  | nil => simp [setA, lookupA, hkk]
  | cons e rest ih =>
    by_cases he : e.1 = k
    · simp [setA, he, lookupA, hkk]
    · simp only [setA, if_neg he, lookupA]
      by_cases he2 : e.1 = k'
      · simp [he2]
      · simp [he2, ih]

theorem setA_setA {α : Type} (l : List (Nat × α)) (k : Nat) (a b : α) :
    setA (setA l k a) k b = setA l k b := by
  induction l with
  | nil => simp [setA]
  | cons e rest ih =>
    by_cases he : e.1 = k
    · simp [setA, he]
    · simp [setA, he, ih]

theorem setA_fresh {α : Type} (l : List (Nat × α)) (k : Nat) (v : α)
    (h : lookupA l k = none) : setA l k v = l ++ [(k, v)] := by
  induction l with
  | nil => simp [setA]
  | cons e rest ih =>
    rw [lookupA] at h
    by_cases he : e.1 = k
    · rw [if_pos he] at h
      exact absurd h (by simp)
    · rw [if_neg he] at h
      simp [setA, he, ih h]

/-! ### Block accumulation during one chunk -/

/-- Symbols of blocks `0..j-1` of a chunk, most recent first — the symbol
list the decoder holds after the encoder's packets for those blocks. -/
def blockAcc (data : List Nat) (ss : Nat) : Nat → List (Nat × List Nat)
  | 0 => []
  | j + 1 => (j, symbolOf data ss j) :: blockAcc data ss j

theorem lookupA_blockAcc (data : List Nat) (ss : Nat) :
    ∀ j k, lookupA (blockAcc data ss j) k
      = if k < j then some (symbolOf data ss k) else none := by
  intro j
  induction j with
  | zero => intro k; simp [blockAcc, lookupA]
  | succ m ih =>
    intro k
    rw [blockAcc, lookupA]
    by_cases hk : m = k
    · subst hk
      simp
    · rw [if_neg hk, ih k]
      by_cases hlt : k < m
      · rw [if_pos hlt, if_pos (by omega)]
      · rw [if_neg hlt, if_neg (by omega)]

theorem blockAcc_complete (data : List Nat) (ss n j : Nat) :
    ((List.range n).all (fun k => (lookupA (blockAcc data ss j) k).isSome))
      = decide (n ≤ j) := by
  by_cases h : n ≤ j
  · rw [decide_eq_true h]
    rw [List.all_eq_true]
    intro k hk
    rw [List.mem_range] at hk
    rw [lookupA_blockAcc data ss j k, if_pos (by omega)]
    rfl
  · rw [decide_eq_false h]
    rw [List.all_eq_false]
    refine ⟨j, ?_, ?_⟩
    · rw [List.mem_range]
      omega
    · rw [lookupA_blockAcc data ss j j, if_neg (by omega)]
      simp

/-- Reassembling all source symbols in block order recovers the chunk. -/
theorem symbols_flatten (data : List Nat) (ss : Nat) (hss : 0 < ss) :
    ((List.range (numSourceOf ss data.length)).map (symbolOf data ss)).flatten
      = data := by
  by_cases h0 : data.length = 0
  · have hnil : data = [] := List.length_eq_zero.mp h0
    subst hnil
    simp [numSourceOf, symbolOf]
  · have hpos : 0 < data.length := by omega
    have hns : numSourceOf ss data.length = (data.length + ss - 1) / ss := by
      rw [numSourceOf, if_neg h0]
    have hcl := chunkLoop_eq ss data.length hss data.length 0 (by omega)
    have hmap : (List.range (numSourceOf ss data.length)).map (symbolOf data ss)
        = (chunkLoop ss data.length data.length 0).map (sliceBytes data) := by
      rw [hcl, hns, List.map_map]
      simp only [Nat.sub_zero]
      apply List.map_congr_left
      intro i _
      simp only [Function.comp_apply, sliceBytes, symbolOf, Nat.zero_add]
      have hlen : (data.drop (i * ss)).length = data.length - i * ss :=
        List.length_drop _ _
      rcases Nat.le_total ss (data.length - i * ss) with hle | hle
      · rw [Nat.min_eq_left hle]
      · rw [Nat.min_eq_right hle,
          List.take_of_length_le (by omega), List.take_of_length_le (by omega)]
    rw [hmap, chunkLoop_join data ss hss data.length 0 (by omega)]
    rfl

/-- The reconstructed chunk equals the original chunk bytes. -/
theorem assembleSyms_blockAcc (data : List Nat) (ss : Nat) (hss : 0 < ss) :
    assembleSyms (numSourceOf ss data.length)
      (blockAcc data ss (numSourceOf ss data.length)) = data := by
  unfold assembleSyms
  have hmap : (List.range (numSourceOf ss data.length)).map
      (fun j => (lookupA (blockAcc data ss (numSourceOf ss data.length)) j).getD [])
      = (List.range (numSourceOf ss data.length)).map (symbolOf data ss) := by
    apply List.map_congr_left
    intro j hj
    rw [List.mem_range] at hj
    rw [lookupA_blockAcc, if_pos hj]
    rfl
  rw [hmap, symbols_flatten data ss hss]

/-! ### Decoding the encoder's packet stream -/

/-- Packet `j` of a chunk, as emitted by encodeChunkAux. -/
def chunkPkt (fid : List Nat) (algo : HashAlgorithm) (ss ci : Nat)
    (data : List Nat) (flags j : Nat) : List Nat :=
  mkPacket fid algo ci data.length data.length ss (numSourceOf ss data.length) j
    (symbolOf data ss j) flags

theorem encodeChunkAux_fst (fid : List Nat) (algo : HashAlgorithm) (ss ci : Nat)
    (data : List Nat) (isLast encrypted : Bool) :
    (encodeChunkAux fid algo ss ci data isLast encrypted).1
      = (List.range (numSourceOf ss data.length)).map
          (chunkPkt fid algo ss ci data (flagsByte isLast encrypted algo)) := rfl

theorem encodeChunkAux_fst' (fid : List Nat) (algo : HashAlgorithm) (ss ci : Nat)
    (data : List Nat) (isLast encrypted : Bool) :
    (encodeChunkAux fid algo ss ci data isLast encrypted).1
      = (List.range' 0 (numSourceOf ss data.length)).map
          (chunkPkt fid algo ss ci data (flagsByte isLast encrypted algo)) := by
  rw [encodeChunkAux_fst, List.range_eq_range']

theorem numSourceOf_pos (ss len : Nat) (hss : 0 < ss) : 0 < numSourceOf ss len := by
  unfold numSourceOf
  split
  · omega
  · have h2 : 0 < (len + ss - 1) / ss := by
      rw [lt_ceil_iff ss len 0 hss (by omega)]
      omega
    omega

theorem numSourceOf_le (ss len : Nat) (hss : 0 < ss) :
    numSourceOf ss len ≤ max 1 len := by
  unfold numSourceOf
  split
  · omega
  · have hmul : len ≤ ss * len := Nat.le_mul_of_pos_left len hss
    have hdiv : (len + ss - 1) / ss ≤ len := by
      rw [Nat.div_le_iff_le_mul_add_pred hss]
      omega
    omega

theorem process_packet_valid (d : Decoder) (bs : List Nat) (v : PacketView)
    (hp : parsePacket bs = some v)
    (hf : d.fileId = none ∨ d.fileId = some v.fileId) :
    d.process_packet bs = d.accept v := by
  unfold Decoder.process_packet
  rw [hp]
  rcases hf with hf | hf
  · rw [hf]
  · rw [hf]
    simp

/-- Effect of one encoder packet on the ms_decode loop state: the raw scan
sees the chunk index and flags, and the decoder advances the chunk's
collection state, completing the chunk on its final block. -/
theorem decodeStep_chunkPkt (fid : List Nat) (algo : HashAlgorithm)
    (ss ci : Nat) (data : List Nat) (isLast enc : Bool)
    (hfid : fid.length = 16) (hci : ci < 2 ^ 32) (hlen : data.length < 2 ^ 32)
    (hss0 : 0 < ss) (hss : ss < 2 ^ 16) (j : Nat)
    (hj : j < numSourceOf ss data.length) (st : DecodeLoopState)
    (hf : st.dec.fileId = none ∨ st.dec.fileId = some fid)
    (hentry : lookupA st.dec.chunks ci
      = if j = 0 then none
        else some ⟨numSourceOf ss data.length, blockAcc data ss j, none⟩) :
    decodeStep st (chunkPkt fid algo ss ci data (flagsByte isLast enc algo) j)
      = { dec := { fileId := some fid,
                   chunks := setA st.dec.chunks ci
                     ⟨numSourceOf ss data.length, blockAcc data ss (j + 1),
                      if j + 1 = numSourceOf ss data.length then some data
                      else none⟩,
                   encryptedSeen := st.dec.encryptedSeen || enc,
                   corrupted := st.dec.corrupted },
          extracted := st.extracted + 1,
          maxIdx := max st.maxIdx ci,
          foundLast := st.foundLast || isLast,
          lastIdx := if isLast then ci else st.lastIdx,
          decoded := if j + 1 = numSourceOf ss data.length then st.decoded + 1
                     else st.decoded } := by
  have hnsle : numSourceOf ss data.length ≤ max 1 data.length :=
    numSourceOf_le ss data.length hss0
  have hns32 : numSourceOf ss data.length < 2 ^ 32 := by omega
  have hpayle : (symbolOf data ss j).length ≤ ss := by
    unfold symbolOf
    simp [List.length_take]
  have hscan := mkPacket_scan fid algo ci data.length data.length ss
    (numSourceOf ss data.length) j (symbolOf data ss j)
    (flagsByte isLast enc algo) hfid hci (flagsByte_lt isLast enc algo)
  have hparse := parse_mkPacket fid algo ci data.length data.length ss
    (numSourceOf ss data.length) j (symbolOf data ss j)
    (flagsByte isLast enc algo) hfid hci hlen hlen (by omega) hns32
    (by omega) (by omega) (flagsByte_lt isLast enc algo)
    (flagsAlgo_flagsByte isLast enc algo)
  have hproc := process_packet_valid st.dec
    (chunkPkt fid algo ss ci data (flagsByte isLast enc algo) j) _ hparse hf
  have hlkj : lookupA (blockAcc data ss j) j = none := by
    rw [lookupA_blockAcc]
    simp
  have hcst : (lookupA st.dec.chunks ci).getD
      ⟨numSourceOf ss data.length, [], none⟩
      = ⟨numSourceOf ss data.length, blockAcc data ss j, none⟩ := by
    rw [hentry]
    by_cases hj0 : j = 0
    · subst hj0
      rfl
    · rw [if_neg hj0]
      rfl
  have haccept : st.dec.accept
      ⟨fid, ci, data.length, data.length, ss, numSourceOf ss data.length, j,
        (symbolOf data ss j).length, flagsByte isLast enc algo,
        symbolOf data ss j⟩
      = ({ fileId := some fid,
           chunks := setA st.dec.chunks ci
             ⟨numSourceOf ss data.length, blockAcc data ss (j + 1),
              if j + 1 = numSourceOf ss data.length then some data else none⟩,
           encryptedSeen := st.dec.encryptedSeen || enc,
           corrupted := st.dec.corrupted },
         decide (j + 1 = numSourceOf ss data.length)) := by
    unfold Decoder.accept
    dsimp only
    rw [flagsByte_testBit1, hcst]
    unfold ChunkState.addSym
    dsimp only
    rw [hlkj]
    dsimp only [Option.isSome_none]
    have hsucc : (j, symbolOf data ss j) :: blockAcc data ss j
        = blockAcc data ss (j + 1) := rfl
    rw [hsucc, blockAcc_complete]
    by_cases hcomp : j + 1 = numSourceOf ss data.length
    · rw [decide_eq_true (by omega : numSourceOf ss data.length ≤ j + 1)]
      rw [if_pos hcomp, decide_eq_true hcomp]
      rw [hcomp, assembleSyms_blockAcc data ss hss0]
      simp
    · rw [decide_eq_false (by omega : ¬numSourceOf ss data.length ≤ j + 1)]
      rw [if_neg hcomp, decide_eq_false hcomp]
      simp
  simp only [chunkPkt] at hproc ⊢
  unfold decodeStep
  dsimp only
  rw [if_pos hscan.1, hscan.2.1, hscan.2.2, flagsByte_testBit0]
  by_cases hmx : st.maxIdx < ci
  · cases isLast
    · simp only [Bool.false_eq_true, if_false, if_pos hmx]
      rw [hproc, haccept]
      simp only [Bool.or_false]
      have hmax : ci = max st.maxIdx ci := by omega
      rw [← hmax]
      by_cases hcomp : j + 1 = numSourceOf ss data.length
      · simp [hcomp]
      · simp [hcomp]
    · simp only [eq_self_iff_true, if_true, if_pos hmx]
      rw [hproc, haccept]
      simp only [Bool.or_true]
      have hmax : ci = max st.maxIdx ci := by omega
      rw [← hmax]
      by_cases hcomp : j + 1 = numSourceOf ss data.length
      · simp [hcomp]
      · simp [hcomp]
  · cases isLast
    · simp only [Bool.false_eq_true, if_false, if_neg hmx]
      rw [hproc, haccept]
      simp only [Bool.or_false]
      have hmax : st.maxIdx = max st.maxIdx ci := by omega
      rw [← hmax]
      by_cases hcomp : j + 1 = numSourceOf ss data.length
      · simp [hcomp]
      · simp [hcomp]
    · simp only [eq_self_iff_true, if_true, if_neg hmx]
      rw [hproc, haccept]
      simp only [Bool.or_true]
      have hmax : st.maxIdx = max st.maxIdx ci := by omega
      rw [← hmax]
      by_cases hcomp : j + 1 = numSourceOf ss data.length
      · simp [hcomp]
      · simp [hcomp]

/-- Folding the decode loop over the remaining packets of one chunk,
starting at block `j`: the chunk completes, one chunk completion is
counted, and the scan fields absorb the chunk index and flags. -/
theorem chunkFold (fid : List Nat) (algo : HashAlgorithm) (ss ci : Nat)
    (data : List Nat) (isLast enc : Bool)
    (hfid : fid.length = 16) (hci : ci < 2 ^ 32) (hlen : data.length < 2 ^ 32)
    (hss0 : 0 < ss) (hss : ss < 2 ^ 16) :
    ∀ k j st, k = numSourceOf ss data.length - j →
      j < numSourceOf ss data.length →
      (st.dec.fileId = none ∨ st.dec.fileId = some fid) →
      (lookupA st.dec.chunks ci = if j = 0 then none
        else some ⟨numSourceOf ss data.length, blockAcc data ss j, none⟩) →
      List.foldl decodeStep st ((List.range' j k).map
          (chunkPkt fid algo ss ci data (flagsByte isLast enc algo)))
        = { dec := { fileId := some fid,
                     chunks := setA st.dec.chunks ci
                       ⟨numSourceOf ss data.length,
                        blockAcc data ss (numSourceOf ss data.length),
                        some data⟩,
                     encryptedSeen := st.dec.encryptedSeen || enc,
                     corrupted := st.dec.corrupted },
            extracted := st.extracted + k,
            maxIdx := max st.maxIdx ci,
            foundLast := st.foundLast || isLast,
            lastIdx := if isLast then ci else st.lastIdx,
            decoded := st.decoded + 1 } := by
  intro k
  induction k with
  | zero =>
    intro j st hk hj _ _
    omega
  | succ k' ih =>
    intro j st hk hj hf hentry
    have hstep := decodeStep_chunkPkt fid algo ss ci data isLast enc hfid hci
      hlen hss0 hss j hj st hf hentry
    rw [show List.range' j (k' + 1) = j :: List.range' (j + 1) k' from rfl,
      List.map_cons, List.foldl_cons, hstep]
    by_cases hcomp : j + 1 = numSourceOf ss data.length
    · have hk0 : k' = 0 := by omega
      subst hk0
      simp only [List.range', List.map_nil, List.foldl_nil]
      rw [if_pos hcomp, if_pos hcomp, hcomp]
    · have hj1 : j + 1 < numSourceOf ss data.length := by omega
      rw [ih (j + 1) _ (by omega) hj1 (by simp)
        (by
          dsimp only
          rw [if_neg (by omega : ¬j + 1 = 0), lookupA_setA_self,
            if_neg hcomp])]
      dsimp only
      rw [setA_setA, if_neg hcomp]
      have hord : ((st.foundLast || isLast) || isLast) = (st.foundLast || isLast) := by
        cases st.foundLast <;> cases isLast <;> rfl
      have henc2 : ((st.dec.encryptedSeen || enc) || enc) = (st.dec.encryptedSeen || enc) := by
        cases st.dec.encryptedSeen <;> cases enc <;> rfl
      have hli : (if isLast = true then ci
          else if isLast = true then ci else st.lastIdx)
          = (if isLast = true then ci else st.lastIdx) := by
        cases isLast <;> rfl
      have hmx2 : max (max st.maxIdx ci) ci = max st.maxIdx ci := by omega
      have hext : st.extracted + 1 + k' = st.extracted + (k' + 1) := by omega
      rw [hord, henc2, hli, hmx2, hext]

/-! ### Folding the decode loop over the whole encoded stream -/

/-- The bytes handed to the encoder for chunk `i` of the pipeline: the
chunk read from the file, encrypted when the session is. -/
def pipePayload (csArg : Nat) (input : List Nat) (enc : Bool)
    (key fid : List Nat) (i : Nat) : List Nat :=
  if enc then encrypt_chunk ((mkFileChunkReader input csArg).chunk_bytes i) key fid i
  else (mkFileChunkReader input csArg).chunk_bytes i

/-- Decoder chunk state once chunk `i` of the pipeline is reconstructed. -/
def pipeDone (csArg ss : Nat) (input : List Nat) (enc : Bool)
    (key fid : List Nat) (i : Nat) : ChunkState :=
  ⟨numSourceOf ss (pipePayload csArg input enc key fid i).length,
   blockAcc (pipePayload csArg input enc key fid i) ss
     (numSourceOf ss (pipePayload csArg input enc key fid i).length),
   some (pipePayload csArg input enc key fid i)⟩

/-- Decoder chunk table after the first `m` pipeline chunks. -/
def pipeChunks (csArg ss : Nat) (input : List Nat) (enc : Bool)
    (key fid : List Nat) : Nat → List (Nat × ChunkState)
  | 0 => []
  | m + 1 => pipeChunks csArg ss input enc key fid m
      ++ [(m, pipeDone csArg ss input enc key fid m)]

theorem lookupA_append {α : Type} (l1 l2 : List (Nat × α)) (k : Nat) :
    lookupA (l1 ++ l2) k
      = match lookupA l1 k with
        | some v => some v
        | none => lookupA l2 k := by
  induction l1 with
  | nil => simp [lookupA]
  | cons e rest ih =>
    by_cases he : e.1 = k
    · simp [lookupA, he]
    · simp [lookupA, he, ih]

theorem lookupA_pipeChunks (csArg ss : Nat) (input : List Nat) (enc : Bool)
    (key fid : List Nat) :
    ∀ m i, lookupA (pipeChunks csArg ss input enc key fid m) i
      = if i < m then some (pipeDone csArg ss input enc key fid i) else none := by
  intro m
  induction m with
  | zero =>
    intro i
    simp [pipeChunks, lookupA]
  | succ m' ih =>
    intro i
    rw [pipeChunks, lookupA_append, ih i]
    by_cases hi : i < m'
    · rw [if_pos hi, if_pos (by omega)]
    · rw [if_neg hi]
      by_cases him : i = m'
      · subst him
        simp [lookupA, if_pos (by omega : i < i + 1)]
      · simp [lookupA, him, if_neg (by omega : ¬i < m' + 1)]
        omega

theorem mkFileChunkReader_cs (contents : List Nat) (csArg : Nat) :
    (mkFileChunkReader contents csArg).cs
      = if csArg > 0 then csArg else CHUNK_SIZE_BYTES := rfl

theorem mkFileChunkReader_cs_pos (input : List Nat) (csArg : Nat) :
    0 < (mkFileChunkReader input csArg).cs := by
  unfold mkFileChunkReader
  dsimp only
  split
  · omega
  · decide

theorem num_chunks_pos (input : List Nat) (csArg : Nat) :
    0 < (mkFileChunkReader input csArg).num_chunks := by
  unfold FileChunkReader.num_chunks
  split
  · omega
  · have hcs := mkFileChunkReader_cs_pos input csArg
    have hfs : 0 < (mkFileChunkReader input csArg).file_size := by
      unfold FileChunkReader.file_size at *
      omega
    rw [lt_ceil_iff _ _ 0 hcs hfs]
    omega

theorem num_chunks_le (input : List Nat) (csArg : Nat) :
    (mkFileChunkReader input csArg).num_chunks ≤ max 1 input.length := by
  unfold FileChunkReader.num_chunks
  have hcs := mkFileChunkReader_cs_pos input csArg
  have hfs : (mkFileChunkReader input csArg).file_size = input.length := rfl
  rw [hfs]
  split
  · omega
  · set cs := (mkFileChunkReader input csArg).cs
    have hmul : input.length ≤ cs * input.length :=
      Nat.le_mul_of_pos_left input.length hcs
    have hdiv : (input.length + cs - 1) / cs ≤ input.length := by
      rw [Nat.div_le_iff_le_mul_add_pred hcs]
      omega
    omega

theorem chunk_bytes_length_le (input : List Nat) (csArg i : Nat) :
    ((mkFileChunkReader input csArg).chunk_bytes i).length
      ≤ (mkFileChunkReader input csArg).cs := by
  unfold FileChunkReader.chunk_bytes
  dsimp only
  split
  · simp
  · simp only [List.length_take, List.length_drop]
    omega

theorem encrypt_chunk_length (data key fid : List Nat) (idx : Nat) :
    (encrypt_chunk data key fid idx).length = data.length + 4 := by
  unfold encrypt_chunk
  simp [xorKs_length, le32_length]

theorem pipePayload_length_le (csArg : Nat) (input : List Nat) (enc : Bool)
    (key fid : List Nat) (i : Nat) :
    (pipePayload csArg input enc key fid i).length
      ≤ (mkFileChunkReader input csArg).cs + 4 := by
  unfold pipePayload
  have hle := chunk_bytes_length_le input csArg i
  split
  · rw [encrypt_chunk_length]
    omega
  · omega

/-- Folding the ms_decode loop over the packets of the first `m` pipeline
chunks: all of them reconstruct, the FileId is captured, the encrypted flag
reflects the session, and the scan fields identify the last chunk exactly
when the last pipeline chunk is among them. -/
theorem pipeFold (csArg ss : Nat) (input : List Nat) (enc : Bool)
    (key fid : List Nat) (algo : HashAlgorithm)
    (hfid : fid.length = 16) (hss0 : 0 < ss) (hss : ss < 2 ^ 16)
    (hlen32 : input.length < 2 ^ 32)
    (hcs32 : (mkFileChunkReader input csArg).cs + 4 < 2 ^ 32) :
    ∀ m, 1 ≤ m → m ≤ (mkFileChunkReader input csArg).num_chunks →
      List.foldl decodeStep initLoopState
        (((List.range m).map (fun i =>
          (encodeChunkAux fid algo ss i (pipePayload csArg input enc key fid i)
            (decide (i = (mkFileChunkReader input csArg).num_chunks - 1)) enc).1)).flatten)
        = { dec := { fileId := some fid,
                     chunks := pipeChunks csArg ss input enc key fid m,
                     encryptedSeen := enc,
                     corrupted := 0 },
            extracted := ((List.range m).map (fun i =>
              numSourceOf ss (pipePayload csArg input enc key fid i).length)).sum,
            maxIdx := m - 1,
            foundLast := decide (m = (mkFileChunkReader input csArg).num_chunks),
            lastIdx := if m = (mkFileChunkReader input csArg).num_chunks
              then m - 1 else 0,
            decoded := m } := by
  have hN1 : 1 ≤ (mkFileChunkReader input csArg).num_chunks :=
    num_chunks_pos input csArg
  have hNle : (mkFileChunkReader input csArg).num_chunks ≤ max 1 input.length :=
    num_chunks_le input csArg
  intro m
  induction m with
  | zero => intro h; omega
  | succ m' ih =>
    intro _ hle
    have hchunk := fun (i : Nat) (hi : i < (mkFileChunkReader input csArg).num_chunks) =>
      chunkFold fid algo ss i (pipePayload csArg input enc key fid i)
        (decide (i = (mkFileChunkReader input csArg).num_chunks - 1)) enc
        hfid (by omega) (by
          have := pipePayload_length_le csArg input enc key fid i
          omega) hss0 hss
    cases Nat.eq_zero_or_pos m' with
    | inl hm0 =>
      subst hm0
      rw [show List.range 1 = [0] from rfl, List.map_cons, List.map_nil,
        List.flatten_cons, List.flatten_nil, List.append_nil,
        encodeChunkAux_fst']
      rw [hchunk 0 (by omega)
        (numSourceOf ss (pipePayload csArg input enc key fid 0).length) 0
        initLoopState (by omega) (numSourceOf_pos ss _ hss0) (Or.inl rfl)
        (by simp [initLoopState, Decoder.init, lookupA])]
      have hfl : (initLoopState.foundLast
            || decide (0 = (mkFileChunkReader input csArg).num_chunks - 1))
          = decide (0 + 1 = (mkFileChunkReader input csArg).num_chunks) := by
        rw [show initLoopState.foundLast = false from rfl, Bool.false_or,
          decide_eq_decide]
        omega
      rw [hfl]
      simp only [initLoopState, Decoder.init, Bool.false_or, Nat.zero_add,
        DecodeLoopState.mk.injEq, Decoder.mk.injEq]
      refine ⟨⟨trivial, ?_, trivial, trivial⟩, by simp, by simp, trivial, ?_, trivial⟩
      · rfl
      · have h1 : (if decide (0 = (mkFileChunkReader input csArg).num_chunks - 1) = true
            then (0 : Nat) else 0) = 0 := ite_self 0
        have h2 : (if 1 = (mkFileChunkReader input csArg).num_chunks
            then 1 - 1 else (0 : Nat)) = 0 := by
          split <;> omega
        rw [h1, h2]
    | inr hm1 =>
      have hfresh : lookupA (pipeChunks csArg ss input enc key fid m') m' = none := by
        rw [lookupA_pipeChunks]
        simp
      rw [List.range_succ, List.map_append, List.flatten_append, List.foldl_append,
        ih hm1 (by omega)]
      rw [List.map_cons, List.map_nil, List.flatten_cons, List.flatten_nil,
        List.append_nil, encodeChunkAux_fst']
      rw [hchunk m' (by omega)
        (numSourceOf ss (pipePayload csArg input enc key fid m').length) 0
        { dec := { fileId := some fid,
                   chunks := pipeChunks csArg ss input enc key fid m',
                   encryptedSeen := enc, corrupted := 0 },
          extracted := ((List.range m').map (fun i =>
            numSourceOf ss (pipePayload csArg input enc key fid i).length)).sum,
          maxIdx := m' - 1,
          foundLast := decide (m' = (mkFileChunkReader input csArg).num_chunks),
          lastIdx := if m' = (mkFileChunkReader input csArg).num_chunks
            then m' - 1 else 0,
          decoded := m' }
        (by omega) (numSourceOf_pos ss _ hss0) (Or.inr rfl)
        (by
          dsimp only
          rw [if_pos rfl, lookupA_pipeChunks]
          simp)]
      dsimp only
      rw [setA_fresh _ _ _ hfresh]
      have hremx : max (m' - 1) m' = m' + 1 - 1 := by omega
      have hfl2 : (decide (m' = (mkFileChunkReader input csArg).num_chunks)
            || decide (m' = (mkFileChunkReader input csArg).num_chunks - 1))
          = decide (m' + 1 = (mkFileChunkReader input csArg).num_chunks) := by
        rw [decide_eq_false (by omega : ¬m' = (mkFileChunkReader input csArg).num_chunks),
          Bool.false_or, decide_eq_decide]
        omega
      rw [hremx, hfl2, Bool.or_self]
      simp only [DecodeLoopState.mk.injEq, Decoder.mk.injEq]
      refine ⟨⟨trivial, rfl, trivial, trivial⟩, ?_, trivial, trivial, ?_, trivial⟩
      · rw [List.map_append, List.sum_append]
        simp
      · by_cases hNN : m' + 1 = (mkFileChunkReader input csArg).num_chunks
        · rw [if_pos (by rw [decide_eq_true_eq]; omega), if_pos hNN]
          omega
        · rw [if_neg (by rw [decide_eq_true_eq]; omega), if_neg hNN,
            if_neg (by omega : ¬m' = (mkFileChunkReader input csArg).num_chunks)]

/-! ### Final assembly -/

/-- The chunks the reader yields concatenate back to the whole file. -/
theorem reader_chunks_flatten (input : List Nat) (csArg : Nat) :
    ((List.range (mkFileChunkReader input csArg).num_chunks).map
      (mkFileChunkReader input csArg).chunk_bytes).flatten = input := by
  have hcs := mkFileChunkReader_cs_pos input csArg
  by_cases h0 : input.length = 0
  · have hnil : input = [] := List.length_eq_zero.mp h0
    subst hnil
    have hN : (mkFileChunkReader [] csArg).num_chunks = 1 := rfl
    rw [hN, show List.range 1 = [0] from rfl, List.map_cons, List.map_nil]
    have hcb : (mkFileChunkReader [] csArg).chunk_bytes 0 = [] := by
      unfold FileChunkReader.chunk_bytes FileChunkReader.file_size
      rw [show (mkFileChunkReader [] csArg).contents = [] from rfl]
      simp
    rw [hcb]
    rfl
  · have hpos : 0 < input.length := by omega
    have hN : (mkFileChunkReader input csArg).num_chunks
        = (input.length + (mkFileChunkReader input csArg).cs - 1)
          / (mkFileChunkReader input csArg).cs := by
      unfold FileChunkReader.num_chunks FileChunkReader.file_size
      rw [if_neg (by exact h0)]
      rfl
    have hcl := chunkLoop_eq (mkFileChunkReader input csArg).cs input.length hcs
      input.length 0 (by omega)
    have hmap : (List.range (mkFileChunkReader input csArg).num_chunks).map
        (mkFileChunkReader input csArg).chunk_bytes
        = (chunkLoop (mkFileChunkReader input csArg).cs input.length
            input.length 0).map (sliceBytes input) := by
      rw [hcl, hN, List.map_map]
      simp only [Nat.sub_zero]
      apply List.map_congr_left
      intro i hi
      rw [List.mem_range] at hi
      have hofflt : i * (mkFileChunkReader input csArg).cs < input.length :=
        (lt_ceil_iff _ _ i hcs hpos).mp hi
      simp only [Function.comp_apply, sliceBytes, Nat.zero_add]
      unfold FileChunkReader.chunk_bytes FileChunkReader.file_size
      dsimp only
      rw [show (mkFileChunkReader input csArg).contents = input from rfl]
      rw [if_neg (by omega)]
    rw [hmap, chunkLoop_join input _ hcs input.length 0 (by omega)]
    rfl

/-- Assembling the first `m` chunks of the completed pipeline decoder
succeeds and yields their plaintext concatenation. -/
theorem write_assembled_pipe (csArg ss : Nat) (input : List Nat) (enc : Bool)
    (key fid : List Nat) :
    ∀ m, m ≤ (mkFileChunkReader input csArg).num_chunks →
      Decoder.write_assembled
        ⟨some fid,
         pipeChunks csArg ss input enc key fid
           (mkFileChunkReader input csArg).num_chunks,
         enc, 0⟩
        (if enc then some key else none) m
      = some (((List.range m).map
          (mkFileChunkReader input csArg).chunk_bytes).flatten) := by
  intro m
  induction m with
  | zero => intro _; rfl
  | succ m' ih =>
    intro hle
    unfold Decoder.write_assembled at ih ⊢
    rw [List.range_succ, List.foldl_append, ih (by omega)]
    simp only [List.foldl_cons, List.foldl_nil, Option.some_bind]
    rw [lookupA_pipeChunks, if_pos (by omega)]
    unfold pipeDone
    simp only [Option.some_bind]
    rw [List.map_append, List.flatten_append]
    cases enc with
    | false =>
      simp [pipePayload]
    | true =>
      simp only [if_true]
      rw [show pipePayload csArg input true key fid m'
          = encrypt_chunk ((mkFileChunkReader input csArg).chunk_bytes m')
              key fid m' from rfl]
      simp only [Option.some_bind, Option.getD_some]
      rw [decrypt_encrypt_chunk]
      simp

/-- The ms_decode frame loop over any framing of a packet sequence equals
the flat packet fold. -/
theorem decodeLoop_flatten (frames : List (List (List Nat))) :
    decodeLoop frames = List.foldl decodeStep initLoopState frames.flatten := by
  rw [decodeLoop, List.foldl_flatten]

/-- Core of the round-trip: ms_decode on any framing of the encode
pipeline's packets reproduces the input file. -/
theorem ms_decode_encodePipeline (csArg : Nat) (b pw : List Nat) (enc : Bool)
    (algo : HashAlgorithm) (frames : List (List (List Nat)))
    (hframes : frames.flatten
      = encodePipeline csArg SYMBOL_SIZE make_file_id algo enc
          (if enc then derive_key pw make_file_id else []) b)
    (hlen : b.length < 2 ^ 32)
    (hcs4 : (mkFileChunkReader b csArg).cs + 4 < 2 ^ 32)
    (hpw : enc = true → pw.length ≠ 0) :
    ms_decode_pure frames pw = .ok b := by
  have hN1 : 1 ≤ (mkFileChunkReader b csArg).num_chunks := num_chunks_pos b csArg
  have hst : decodeLoop frames
      = { dec := { fileId := some make_file_id,
                   chunks := pipeChunks csArg SYMBOL_SIZE b enc
                     (if enc then derive_key pw make_file_id else []) make_file_id
                     (mkFileChunkReader b csArg).num_chunks,
                   encryptedSeen := enc,
                   corrupted := 0 },
          extracted := ((List.range (mkFileChunkReader b csArg).num_chunks).map
            (fun i => numSourceOf SYMBOL_SIZE
              (pipePayload csArg b enc
                (if enc then derive_key pw make_file_id else []) make_file_id
                i).length)).sum,
          maxIdx := (mkFileChunkReader b csArg).num_chunks - 1,
          foundLast := decide ((mkFileChunkReader b csArg).num_chunks
            = (mkFileChunkReader b csArg).num_chunks),
          lastIdx := if (mkFileChunkReader b csArg).num_chunks
              = (mkFileChunkReader b csArg).num_chunks
            then (mkFileChunkReader b csArg).num_chunks - 1 else 0,
          decoded := (mkFileChunkReader b csArg).num_chunks } := by
    rw [decodeLoop_flatten, hframes,
      show encodePipeline csArg SYMBOL_SIZE make_file_id algo enc
          (if enc then derive_key pw make_file_id else []) b
        = ((List.range (mkFileChunkReader b csArg).num_chunks).map (fun i =>
            (encodeChunkAux make_file_id algo SYMBOL_SIZE i
              (pipePayload csArg b enc
                (if enc then derive_key pw make_file_id else []) make_file_id i)
              (decide (i = (mkFileChunkReader b csArg).num_chunks - 1)) enc).1)).flatten
        from rfl]
    exact pipeFold csArg SYMBOL_SIZE b enc
      (if enc then derive_key pw make_file_id else []) make_file_id algo rfl
      (by decide) (by decide) hlen hcs4
      (mkFileChunkReader b csArg).num_chunks hN1 le_rfl
  have hsum1 : 1 ≤ ((List.range (mkFileChunkReader b csArg).num_chunks).map
      (fun i => numSourceOf SYMBOL_SIZE
        (pipePayload csArg b enc
          (if enc then derive_key pw make_file_id else []) make_file_id
          i).length)).sum := by
    obtain ⟨k, hk⟩ : ∃ k, (mkFileChunkReader b csArg).num_chunks = k + 1 :=
      ⟨(mkFileChunkReader b csArg).num_chunks - 1, by omega⟩
    rw [hk, List.range_succ, List.map_append, List.sum_append]
    have := numSourceOf_pos SYMBOL_SIZE
      (pipePayload csArg b enc
        (if enc then derive_key pw make_file_id else []) make_file_id k).length
      (by decide)
    simp
    omega
  have hexp : expectedChunks (decodeLoop frames)
      = (mkFileChunkReader b csArg).num_chunks := by
    rw [hst, expectedChunks]
    dsimp only
    rw [decide_eq_true rfl, if_pos rfl]
    simp
    omega
  rw [ms_decode_pure, hexp, hst]
  dsimp only
  rw [if_neg (by omega), if_neg (by omega : ¬(mkFileChunkReader b csArg).num_chunks
    < (mkFileChunkReader b csArg).num_chunks)]
  rw [show Decoder.is_encrypted
      { fileId := some make_file_id,
        chunks := pipeChunks csArg SYMBOL_SIZE b enc
          (if enc then derive_key pw make_file_id else []) make_file_id
          (mkFileChunkReader b csArg).num_chunks,
        encryptedSeen := enc, corrupted := 0 } = enc from rfl]
  cases enc with
  | false =>
    rw [if_neg (by simp : ¬((false : Bool) = true))]
    rw [show (if (false : Bool) then derive_key pw make_file_id else []) = []
      from rfl] at hframes ⊢
    have hw := write_assembled_pipe csArg SYMBOL_SIZE b false [] make_file_id
      (mkFileChunkReader b csArg).num_chunks le_rfl
    rw [show (if (false : Bool) = true then some ([] : List Nat) else none)
      = (none : Option (List Nat)) from rfl] at hw
    rw [hw, reader_chunks_flatten]
    rfl
  | true =>
    rw [if_pos rfl]
    rw [if_neg (by simpa using hpw rfl)]
    rw [show Decoder.file_id
        { fileId := some make_file_id,
          chunks := pipeChunks csArg SYMBOL_SIZE b true
            (if (true : Bool) then derive_key pw make_file_id else []) make_file_id
            (mkFileChunkReader b csArg).num_chunks,
          encryptedSeen := true, corrupted := 0 } = some make_file_id from rfl]
    rw [show (some make_file_id).getD [] = make_file_id from rfl]
    rw [show (if (true : Bool) then derive_key pw make_file_id else [])
      = derive_key pw make_file_id from rfl]
    have hw := write_assembled_pipe csArg SYMBOL_SIZE b true
      (derive_key pw make_file_id) make_file_id
      (mkFileChunkReader b csArg).num_chunks le_rfl
    rw [show (if (true : Bool) = true then some (derive_key pw make_file_id) else none)
      = some (derive_key pw make_file_id) from rfl] at hw
    rw [hw, reader_chunks_flatten]
    rfl

/-- C1: for every byte buffer (including the empty one), for each checksum
algorithm (CRC32, XXHash32) and each encryption setting (off, or on with
any non-empty password), decoding the video produced by a successful
ms_encode succeeds and reproduces the original file contents exactly,
however the lossless carrier groups the emitted packets into frames. -/
theorem ms_encode_ms_decode_roundtrip (b pw : List Nat) (enc : Bool)
    (algo : HashAlgorithm) (pkts : List (List Nat))
    (frames : List (List (List Nat)))
    (henc : ms_encode_pure b enc pw algo = .ok pkts)
    (hframes : frames.flatten = pkts)
    (hlen : b.length < 2 ^ 32) :
    ms_decode_pure frames pw = .ok b := by
  have hnot : ¬(enc = true ∧ pw.length = 0) := by
    intro hc
    rw [ms_encode_pure, if_pos hc] at henc
    exact Except.noConfusion henc
  have hpw : enc = true → pw.length ≠ 0 := fun he h0 => hnot ⟨he, h0⟩
  have hpkts : pkts = encodePipeline
      (if enc then CHUNK_SIZE_PLAIN_MAX_ENCRYPTED else 0) SYMBOL_SIZE
      make_file_id algo enc
      (if enc then derive_key pw make_file_id else []) b := by
    rw [ms_encode_pure, if_neg hnot] at henc
    exact (Except.ok.inj henc).symm
  exact ms_decode_encodePipeline (if enc then CHUNK_SIZE_PLAIN_MAX_ENCRYPTED else 0)
    b pw enc algo frames (by rw [hframes, hpkts]) hlen
    (by cases enc <;> rw [mkFileChunkReader_cs] <;> decide) hpw

set_option maxRecDepth 1000000 in
/-- Witness: a concrete encrypted round trip through ms_encode and
ms_decode over the buffer [1, 2, 3] with password byte 7 and the XXHash32
packet checksum. -/
theorem ms_encode_ms_decode_roundtrip_witness :
    ms_decode_pure
      [match ms_encode_pure [1, 2, 3] true [7] .XXHash32 with
       | .ok pkts => pkts
       | .error _ => []] [7] = .ok [1, 2, 3] :=
  ms_encode_ms_decode_roundtrip [1, 2, 3] [7] true .XXHash32
    (match ms_encode_pure [1, 2, 3] true [7] .XXHash32 with
     | .ok pkts => pkts
     | .error _ => [])
    [match ms_encode_pure [1, 2, 3] true [7] .XXHash32 with
     | .ok pkts => pkts
     | .error _ => []]
    rfl rfl (by decide)

/-- C2 (code finding): make_file_id returns the fixed byte sequence
0,1,...,15 in every encode session, so the session key ms_encode derives
depends only on the password: two encode sessions over different input
files with the same password derive identical keys, contradicting the
claim that the same password never reuses a key across sessions. -/
theorem ms_encode_session_key_ignores_file (b1 b2 pw : List Nat) (enc : Bool) :
    make_file_id = [0, 1, 2, 3, 4, 5, 6, 7, 8, 9, 10, 11, 12, 13, 14, 15] ∧
    ms_encode_session_key b1 enc pw = ms_encode_session_key b2 enc pw :=
  ⟨by decide, rfl⟩

/-- C5 (amended): given at least one extracted packet, ms_decode returns
the incomplete-data status exactly when fewer chunks were reconstructed
than the declared expected chunk count, and the crypto-error status
exactly when enough chunks were reconstructed, the stream is encrypted,
and the supplied password is missing (empty).  A wrong non-empty password
never reaches the crypto-error path (see the counterexample theorem). -/
theorem ms_decode_status_taxonomy (frames : List (List (List Nat)))
    (pw : List Nat) (hex : 1 ≤ (decodeLoop frames).extracted) :
    (ms_decode_pure frames pw = .error .incomplete
      ↔ (decodeLoop frames).decoded < expectedChunks (decodeLoop frames)) ∧
    (ms_decode_pure frames pw = .error .cryptoError
      ↔ (expectedChunks (decodeLoop frames) ≤ (decodeLoop frames).decoded
          ∧ (decodeLoop frames).dec.is_encrypted = true ∧ pw.length = 0)) := by
  rw [ms_decode_pure, if_neg (by omega)]
  by_cases hdec : (decodeLoop frames).decoded < expectedChunks (decodeLoop frames)
  · rw [if_pos hdec]
    refine ⟨⟨fun _ => hdec, fun _ => rfl⟩, ?_, ?_⟩
    · intro h
      exact absurd h (by simp)
    · intro hc
      omega
  · rw [if_neg hdec]
    by_cases henc : (decodeLoop frames).dec.is_encrypted = true
    · rw [if_pos henc]
      by_cases hpw0 : pw.length = 0
      · rw [if_pos hpw0]
        refine ⟨⟨fun h => absurd h (by simp), fun hc => absurd hc (by omega)⟩,
          fun _ => ⟨by omega, henc, hpw0⟩, fun _ => rfl⟩
      · rw [if_neg hpw0]
        cases hw : (decodeLoop frames).dec.write_assembled
          (some (derive_key pw ((decodeLoop frames).dec.file_id.getD [])))
          (expectedChunks (decodeLoop frames)) with
        | none =>
          exact ⟨⟨fun h => absurd h (by simp [Option.elim]), fun hc => absurd hc (by omega)⟩,
            fun h => absurd h (by simp [Option.elim]), fun hc => absurd hc.2.2 hpw0⟩
        | some out =>
          exact ⟨⟨fun h => absurd h (by simp [Option.elim]), fun hc => absurd hc (by omega)⟩,
            fun h => absurd h (by simp [Option.elim]), fun hc => absurd hc.2.2 hpw0⟩
    · rw [if_neg henc]
      cases hw : (decodeLoop frames).dec.write_assembled none
        (expectedChunks (decodeLoop frames)) with
      | none =>
        exact ⟨⟨fun h => absurd h (by simp [Option.elim]), fun hc => absurd hc (by omega)⟩,
          fun h => absurd h (by simp [Option.elim]), fun hc => absurd hc.2.1 henc⟩
      | some out =>
        exact ⟨⟨fun h => absurd h (by simp [Option.elim]), fun hc => absurd hc (by omega)⟩,
          fun h => absurd h (by simp [Option.elim]), fun hc => absurd hc.2.1 henc⟩

set_option maxRecDepth 1000000 in
/-- Witness for the status-taxonomy theorem: a single valid packet that
declares two source symbols but delivers only one leaves its chunk
unreconstructed, and ms_decode reports incomplete data. -/
theorem ms_decode_status_taxonomy_witness :
    ms_decode_pure [[mkPacket make_file_id .CRC32 0 9 9 4 2 0 [1, 2, 3, 4] 0]] []
      = .error .incomplete :=
  (ms_decode_status_taxonomy
    [[mkPacket make_file_id .CRC32 0 9 9 4 2 0 [1, 2, 3, 4] 0]] []
    (by decide)).1.mpr (by decide)

set_option maxRecDepth 1000000 in
/-- Counterexample to C5 as stated: decoding an encrypted stream with a
wrong (non-empty) password returns the decode-failure status, not the
crypto-error status the claim promises for a wrong password. -/
theorem ms_decode_wrong_password_not_crypto :
    ms_decode_pure
        [match ms_encode_pure [1, 2, 3] true [5] .CRC32 with
         | .ok p => p
         | .error _ => []] [6]
      = .error .decodeFailed ∧
    (Except.error .decodeFailed : Except MsStatus (List Nat))
      ≠ .error .cryptoError := by
  constructor
  · rfl
  · simp

/-! ### Raw scan of the last-chunk marker (for the expected-count
inference) -/

/-- A raw packet buffer carries the last-chunk marker when it is at least a
header long and bit 0 of its flags byte is set, exactly as the ms_decode
scan reads it. -/
def carriesLastMarker (bs : List Nat) : Prop :=
  HEADER_SIZE ≤ bs.length ∧ (readByte bs FLAGS_OFF).testBit 0 = true

instance (bs : List Nat) : Decidable (carriesLastMarker bs) := by
  unfold carriesLastMarker
  infer_instance

theorem decodeStep_foundLast (st : DecodeLoopState) (bs : List Nat) :
    (decodeStep st bs).foundLast
      = (st.foundLast || decide (carriesLastMarker bs)) := by
  unfold decodeStep carriesLastMarker
  dsimp only
  by_cases hl : HEADER_SIZE ≤ bs.length
  · by_cases hb : (readByte bs FLAGS_OFF).testBit 0 = true
    · by_cases hm : st.maxIdx < readLE32 bs CHUNK_INDEX_OFF <;>
        simp [hl, hb, hm]
    · by_cases hm : st.maxIdx < readLE32 bs CHUNK_INDEX_OFF <;>
        simp [hl, hb, hm]
  · simp [hl]

theorem decodeStep_lastIdx (st : DecodeLoopState) (bs : List Nat) :
    (decodeStep st bs).lastIdx
      = if carriesLastMarker bs then readLE32 bs CHUNK_INDEX_OFF
        else st.lastIdx := by
  unfold decodeStep carriesLastMarker
  dsimp only
  by_cases hl : HEADER_SIZE ≤ bs.length
  · by_cases hb : (readByte bs FLAGS_OFF).testBit 0 = true
    · by_cases hm : st.maxIdx < readLE32 bs CHUNK_INDEX_OFF <;>
        simp [hl, hb, hm]
    · by_cases hm : st.maxIdx < readLE32 bs CHUNK_INDEX_OFF <;>
        simp [hl, hb, hm]
  · simp [hl]

theorem foldl_foundLast (pkts : List (List Nat)) :
    ∀ st : DecodeLoopState,
      (List.foldl decodeStep st pkts).foundLast
        = (st.foundLast || pkts.any (fun bs => decide (carriesLastMarker bs))) := by
  induction pkts with
  | nil => intro st; simp
  | cons bs rest ih =>
    intro st
    rw [List.foldl_cons, ih, decodeStep_foundLast]
    simp [Bool.or_assoc]

theorem foldl_lastIdx (pkts : List (List Nat)) (L : Nat)
    (hall : ∀ bs ∈ pkts, carriesLastMarker bs → readLE32 bs CHUNK_INDEX_OFF = L) :
    ∀ st : DecodeLoopState,
      (List.foldl decodeStep st pkts).lastIdx
        = if pkts.any (fun bs => decide (carriesLastMarker bs)) then L
          else st.lastIdx := by
  induction pkts with
  | nil => intro st; simp
  | cons bs rest ih =>
    intro st
    have hallr : ∀ b ∈ rest, carriesLastMarker b → readLE32 b CHUNK_INDEX_OFF = L :=
      fun b hb => hall b (List.mem_cons_of_mem bs hb)
    rw [List.foldl_cons, ih hallr, decodeStep_lastIdx]
    by_cases hc : carriesLastMarker bs
    · rw [if_pos hc, hall bs (List.mem_cons_self bs rest) hc]
      by_cases hr : rest.any (fun b => decide (carriesLastMarker b))
      · simp [hr, hc]
      · simp only [Bool.not_eq_true] at hr
        simp [hr, hc]
    · rw [if_neg hc]
      simp [hc]

set_option maxRecDepth 1000000 in
/-- C10: when at least one packet was extracted and no observed packet
carries the last-chunk marker, ms_decode infers the expected chunk count
as the maximum observed chunk index plus one instead of failing for lack
of the marker — it can even return success on such a stream, as the third
conjunct shows on a concrete marker-free stream; when marker packets are
observed (all carrying chunk index L), the expected count is L + 1. -/
theorem ms_decode_expected_chunk_inference (frames : List (List (List Nat)))
    (L : Nat) :
    ((∀ bs ∈ frames.flatten, ¬carriesLastMarker bs) →
      expectedChunks (decodeLoop frames) = (decodeLoop frames).maxIdx + 1) ∧
    ((∃ bs ∈ frames.flatten, carriesLastMarker bs) →
      (∀ bs ∈ frames.flatten, carriesLastMarker bs →
        readLE32 bs CHUNK_INDEX_OFF = L) →
      expectedChunks (decodeLoop frames) = L + 1) ∧
    ms_decode_pure [[mkPacket make_file_id .CRC32 0 1 1 4 1 0 [42] 0]] []
      = .ok [42] := by
  refine ⟨?_, ?_, by rfl⟩
  · intro hnone
    have hfl : (decodeLoop frames).foundLast = false := by
      rw [decodeLoop_flatten, foldl_foundLast]
      rw [show initLoopState.foundLast = false from rfl, Bool.false_or]
      rw [List.any_eq_false]
      intro bs hbs
      simp [hnone bs hbs]
    rw [expectedChunks, hfl]
    simp
  · intro hsome hall
    have hany : frames.flatten.any (fun bs => decide (carriesLastMarker bs)) = true := by
      rw [List.any_eq_true]
      obtain ⟨bs, hbs, hc⟩ := hsome
      exact ⟨bs, hbs, by simp [hc]⟩
    have hfl : (decodeLoop frames).foundLast = true := by
      rw [decodeLoop_flatten, foldl_foundLast, hany]
      simp
    have hli : (decodeLoop frames).lastIdx = L := by
      rw [decodeLoop_flatten, foldl_lastIdx frames.flatten L hall, if_pos hany]
    rw [expectedChunks, hfl, hli]
    simp

/-! ### Control-flow skeletons of ms_encode / ms_decode

The temporal claims about key wiping and cancellation are about which
statements lie on which exit path of media_storage_api.cpp.  The skeletons
below mirror the source's control flow with every fallible step and every
progress-callback decision parametrized by oracles, and record which
cleanup statements the taken path executed. -/

/-- How a chunk/frame loop ended. -/
inductive LoopOutcome where
  | finished
  | cancelled (k : Nat)
  | failed (k : Nat)
deriving DecidableEq

/-- The chunk loop of ms_encode (lines 87-111): before chunk `i` the
progress callback may cancel; processing chunk `i` (read, encrypt, encode,
video write) may throw; otherwise chunk `i` is processed and the loop
advances.  Returns the processed chunk indices in order and the outcome. -/
def encChunkLoop (cancel fail : Nat → Bool) : Nat → Nat → List Nat × LoopOutcome
  | _, 0 => ([], .finished)
  | i, rem + 1 =>
    if cancel i then ([], .cancelled i)
    else if fail i then ([], .failed i)
    else
      let pr := encChunkLoop cancel fail (i + 1) rem
      (i :: pr.1, pr.2)

/-- Outcome record of the ms_encode control-flow skeleton. -/
structure EncodeFlowResult where
  status : MsStatus
  processed : List Nat
  keyDerived : Bool
  keyWiped : Bool
deriving DecidableEq

/-- Control-flow skeleton of ms_encode: argument checks, input existence,
key derivation (executed exactly when encryption is on and the early
checks passed), the video-encoder constructor, the chunk loop with
cancellation and exceptions, and finalize.  `keyWiped` records whether the
taken exit path executed the `if (encrypt) secure_zero(key)` statement the
source places before that return (so it is `encrypt` on every path after
key derivation and `false` on the two early returns, which precede it). -/
def ms_encode_flow (encrypt pwEmpty inputMissing ctorFail finalizeFail : Bool)
    (cancel fail : Nat → Bool) (numChunks : Nat) : EncodeFlowResult :=
  if encrypt ∧ pwEmpty then ⟨.invalidArgs, [], false, false⟩
  else if inputMissing then ⟨.fileNotFound, [], false, false⟩
  else if ctorFail then ⟨.encodeFailed, [], encrypt, encrypt⟩
  else
    match encChunkLoop cancel fail 0 numChunks with
    | (pr, .cancelled _) => ⟨.encodeFailed, pr, encrypt, encrypt⟩
    | (pr, .failed _) => ⟨.encodeFailed, pr, encrypt, encrypt⟩
    | (pr, .finished) =>
      if finalizeFail then ⟨.encodeFailed, pr, encrypt, encrypt⟩
      else ⟨.ok, pr, encrypt, encrypt⟩

/-- The frame loop of ms_decode (lines 159-192): before frame `i` the
progress callback may cancel; decoding frame `i` may throw; otherwise the
frame is processed.  Returns the number of frames processed and the
outcome. -/
def decFrameLoop (cancel fail : Nat → Bool) : Nat → Nat → Nat × LoopOutcome
  | i, 0 => (i, .finished)
  | i, rem + 1 =>
    if cancel i then (i, .cancelled i)
    else if fail i then (i, .failed i)
    else decFrameLoop cancel fail (i + 1) rem

/-- Outcome record of the ms_decode control-flow skeleton. -/
structure DecodeFlowResult where
  status : MsStatus
  framesProcessed : Nat
  keyDerived : Bool
  localKeyWiped : Bool
  decoderKeySet : Bool
  decoderKeyCleared : Bool
deriving DecidableEq

/-- Control-flow skeleton of ms_decode: input check, the frame loop with
cancellation and exceptions, the empty-extraction and incompleteness
checks, then for an encrypted stream the password check, key derivation,
set_decrypt_key, the immediate secure_zero of the local key copy
(line 220), assembly (`assembleOk` models write_assembled_file's result),
and clear_decrypt_key on both assembly outcomes (lines 224 and 228). -/
def ms_decode_flow (inputMissing : Bool) (numFrames : Nat)
    (cancel fail : Nat → Bool)
    (extractedZero incomplete encrypted pwEmpty assembleOk : Bool) :
    DecodeFlowResult :=
  if inputMissing then ⟨.fileNotFound, 0, false, false, false, false⟩
  else
    match decFrameLoop cancel fail 0 numFrames with
    | (k, .cancelled _) => ⟨.decodeFailed, k, false, false, false, false⟩
    | (k, .failed _) => ⟨.decodeFailed, k, false, false, false, false⟩
    | (k, .finished) =>
      if extractedZero then ⟨.decodeFailed, k, false, false, false, false⟩
      else if incomplete then ⟨.incomplete, k, false, false, false, false⟩
      else if encrypted then
        if pwEmpty then ⟨.cryptoError, k, false, false, false, false⟩
        else if assembleOk then ⟨.ok, k, true, true, true, true⟩
        else ⟨.decodeFailed, k, true, true, true, true⟩
      else if assembleOk then ⟨.ok, k, false, false, false, false⟩
      else ⟨.decodeFailed, k, false, false, false, false⟩

/-- C3: on every exit path of ms_encode and ms_decode — success, error
return, cancellation via the progress callback, and exceptions in any
step — whenever key material was derived, the wipe runs before the call
returns: ms_encode executes secure_zero on the key whenever it derived
one, and ms_decode wipes its local key copy and clears the decoder's key
whenever they were set. -/
theorem key_wiped_on_every_exit
    (encrypt pwEmpty inputMissing ctorFail finalizeFail : Bool)
    (cancel fail : Nat → Bool) (numChunks : Nat)
    (inputMissingD : Bool) (numFrames : Nat) (cancelD failD : Nat → Bool)
    (extractedZero incomplete encrypted pwEmptyD assembleOk : Bool) :
    ((ms_encode_flow encrypt pwEmpty inputMissing ctorFail finalizeFail
        cancel fail numChunks).keyDerived = true →
      (ms_encode_flow encrypt pwEmpty inputMissing ctorFail finalizeFail
        cancel fail numChunks).keyWiped = true) ∧
    ((ms_decode_flow inputMissingD numFrames cancelD failD
        extractedZero incomplete encrypted pwEmptyD assembleOk).keyDerived = true →
      (ms_decode_flow inputMissingD numFrames cancelD failD
        extractedZero incomplete encrypted pwEmptyD assembleOk).localKeyWiped
        = true) ∧
    ((ms_decode_flow inputMissingD numFrames cancelD failD
        extractedZero incomplete encrypted pwEmptyD assembleOk).decoderKeySet
        = true →
      (ms_decode_flow inputMissingD numFrames cancelD failD
        extractedZero incomplete encrypted pwEmptyD assembleOk).decoderKeyCleared
        = true) := by
  refine ⟨?_, ?_, ?_⟩
  · unfold ms_encode_flow
    split
    · simp
    · split
      · simp
      · split
        · exact fun h => h
        · split <;> first
            | exact fun h => h
            | (split <;> exact fun h => h)
  · unfold ms_decode_flow
    repeat' split
    all_goals simp
  · unfold ms_decode_flow
    repeat' split
    all_goals simp

/-- Witness for the key-wiping theorem: an encrypted encode whose video
finalize throws still wipes the key, and an encrypted decode with a failing
assembly still clears both key copies. -/
theorem key_wiped_on_every_exit_witness :
    (ms_encode_flow true false false false true (fun _ => false) (fun _ => false)
      3).keyWiped = true ∧
    (ms_decode_flow false 2 (fun _ => false) (fun _ => false)
      false false true false false).localKeyWiped = true ∧
    (ms_decode_flow false 2 (fun _ => false) (fun _ => false)
      false false true false false).decoderKeyCleared = true := by
  have h := key_wiped_on_every_exit true false false false true
    (fun _ => false) (fun _ => false) 3 false 2 (fun _ => false) (fun _ => false)
    false false true false false
  exact ⟨h.1 (by decide), h.2.1 (by decide), h.2.2 (by decide)⟩

theorem encChunkLoop_cancel (cancel fail : Nat → Bool) (k : Nat)
    (hcan : cancel k = true) :
    ∀ rem i, (∀ j, i ≤ j → j < k → cancel j = false ∧ fail j = false) →
      i ≤ k → k < i + rem →
      encChunkLoop cancel fail i rem = (List.range' i (k - i), .cancelled k) := by
  intro rem
  induction rem with
  | zero => intro i _ _ h; omega
  | succ r ih =>
    intro i hnone hik hlt
    by_cases hik2 : i = k
    · subst hik2
      simp only [encChunkLoop, hcan, if_true]
      rw [Nat.sub_self]
      rfl
    · have hi : i < k := by omega
      obtain ⟨hc, hf⟩ := hnone i (le_refl i) hi
      simp only [encChunkLoop, hc, hf, Bool.false_eq_true, if_false]
      rw [ih (i + 1) (fun j hj1 hj2 => hnone j (by omega) hj2) (by omega) (by omega)]
      have hki : k - i = (k - (i + 1)) + 1 := by omega
      rw [hki]
      rfl

theorem decFrameLoop_cancel (cancel fail : Nat → Bool) (k : Nat)
    (hcan : cancel k = true) :
    ∀ rem i, (∀ j, i ≤ j → j < k → cancel j = false ∧ fail j = false) →
      i ≤ k → k < i + rem →
      decFrameLoop cancel fail i rem = (k, .cancelled k) := by
  intro rem
  induction rem with
  | zero => intro i _ _ h; omega
  | succ r ih =>
    intro i hnone hik hlt
    by_cases hik2 : i = k
    · subst hik2
      simp only [decFrameLoop, hcan, if_true]
    · have hi : i < k := by omega
      obtain ⟨hc, hf⟩ := hnone i (le_refl i) hi
      simp only [decFrameLoop, hc, hf, Bool.false_eq_true, if_false]
      exact ih (i + 1) (fun j hj1 hj2 => hnone j (by omega) hj2) (by omega) (by omega)

/-- C4: if the progress callback first returns non-zero when invoked for
chunk k of ms_encode (respectively frame k of ms_decode), then exactly
chunks 0..k-1 (respectively k frames) are processed — the callback is
checked before starting each next unit — the call returns the
encode-failure (respectively decode-failure) status, and the key-wipe
statement still lies on the taken exit path (keyWiped = encrypt; on the
decode side no key has been derived at that point, so none is resident). -/
theorem progress_cancellation_stops_processing
    (encrypt pwEmpty finalizeFail : Bool)
    (cancel fail : Nat → Bool) (numChunks k : Nat)
    (hargs : ¬(encrypt = true ∧ pwEmpty = true))
    (hbefore : ∀ j, j < k → cancel j = false ∧ fail j = false)
    (hcan : cancel k = true) (hk : k < numChunks)
    (numFramesD kD : Nat) (cancelD failD : Nat → Bool)
    (eZ inc encD pwD aOk : Bool)
    (hbeforeD : ∀ j, j < kD → cancelD j = false ∧ failD j = false)
    (hcanD : cancelD kD = true) (hkD : kD < numFramesD) :
    ms_encode_flow encrypt pwEmpty false false finalizeFail cancel fail numChunks
      = ⟨.encodeFailed, List.range k, encrypt, encrypt⟩ ∧
    ms_decode_flow false numFramesD cancelD failD eZ inc encD pwD aOk
      = ⟨.decodeFailed, kD, false, false, false, false⟩ := by
  constructor
  · unfold ms_encode_flow
    rw [if_neg hargs, if_neg (by simp), if_neg (by simp)]
    rw [encChunkLoop_cancel cancel fail k hcan numChunks 0
      (fun j _ hj => hbefore j hj) (by omega) (by omega)]
    rw [Nat.sub_zero, ← List.range_eq_range']
  · unfold ms_decode_flow
    rw [if_neg (by simp)]
    rw [decFrameLoop_cancel cancelD failD kD hcanD numFramesD 0
      (fun j _ hj => hbeforeD j hj) (by omega) (by omega)]

/-- Witness for the cancellation theorem: cancelling at chunk 2 of 5
processes exactly chunks 0 and 1 and fails the encode with the key wipe on
the exit path; cancelling at frame 1 of 4 processes exactly one frame and
fails the decode. -/
theorem progress_cancellation_stops_processing_witness :
    ms_encode_flow true false false false false
        (fun j => decide (j = 2)) (fun _ => false) 5
      = ⟨.encodeFailed, [0, 1], true, true⟩ ∧
    ms_decode_flow false 4 (fun j => decide (j = 1)) (fun _ => false)
        false false false false true
      = ⟨.decodeFailed, 1, false, false, false, false⟩ := by
  have h := progress_cancellation_stops_processing true false false
    (fun j => decide (j = 2)) (fun _ => false) 5 2 (by decide)
    (by decide) (by decide) (by decide) 4 1
    (fun j => decide (j = 1)) (fun _ => false) false false false false true
    (by decide) (by decide) (by decide)
  exact ⟨h.1, h.2⟩

set_option maxRecDepth 1000000 in
/-- Witness for the expected-count inference: a stream whose single packet
carries the last-chunk marker with chunk index 0 yields an expected count
of 1. -/
theorem ms_decode_expected_chunk_inference_witness :
    expectedChunks (decodeLoop [[mkPacket make_file_id .CRC32 0 1 1 4 1 0 [9] 1]])
      = 1 :=
  (ms_decode_expected_chunk_inference
    [[mkPacket make_file_id .CRC32 0 1 1 4 1 0 [9] 1]] 0).2.1
    (by decide) (by decide)

end MediaStorage
